import Mathlib

/-!
Timestamp service and back-forth protocol of the cothority runtime.

A shallow embedding of `services/timestamp/timestamp.go` (request pool,
`SignatureRequest`, `NewProtocol`, the epoch loop of `runLoop`) and of the
`BackForthProtocol` of `sda/service_test.go`, with the properties of each.

Conventions of the embedding:
* a Go byte is a `Nat` below 256, a byte slice a `List Nat`, the nil slice `[]`;
* a method with a pointer receiver becomes a function on the receiver's value
  returning the new value (and the method's result, when it has one);
* the mutex of the request pool makes each method atomic, which is what a pure
  function on the pool's value already is.
-/

namespace Timestamp

/-! ## Data model (`timestamp.go`, lines 47-91 and 110-128) -/

/-- The `crypto.HashID` type, a byte slice. -/
abbrev HashID := List Nat

/-- The `crypto.Proof` type, a slice of hashes. -/
abbrev Proof := List HashID

/-- The `tree` struct: the proofs and the root of one Merkle tree. -/
structure tree where
  proofs : List Proof
  root : HashID
deriving DecidableEq, Repr

/-- The `requestPool` struct; the embedded mutex has no value of its own. -/
structure requestPool where
  requestData : List HashID
deriving DecidableEq, Repr

/-- The method `requestPool.reset`: sets `requestData` to nil. The Go method
declares no result, so the embedding has none either. -/
def requestPool.reset (_rb : requestPool) : requestPool :=
  { requestData := [] }

/-- The method `requestPool.Add`: appends `data` to `requestData`. -/
def requestPool.Add (rb : requestPool) (data : List Nat) : requestPool :=
  { requestData := rb.requestData ++ [data] }

/-- The method `requestPool.GetData`: returns `requestData`, the pool unchanged. -/
def requestPool.GetData (rb : requestPool) : List HashID :=
  rb.requestData

/-- What a call of `reset` hands back to its caller: the method has no result
list (`func (rb *requestPool) reset()`), so there is no returned snapshot. -/
def requestPool.resetResult (_rb : requestPool) : Option (List HashID) :=
  none

/-- The `Service` struct, with the fields the handlers and the loop read or
write: the request pool, the roster (its server identities, as numbers), the
current tree (a pointer, nil at creation) and the current signature. -/
structure Service where
  requests : requestPool
  roster : List Nat
  currentTree : Option tree
  currentSig : List Nat
deriving DecidableEq, Repr

/-- The `SignatureRequest` message. -/
structure SignatureRequest where
  Message : List Nat
deriving DecidableEq, Repr

/-- The `SignatureResponse` message; `roster` is a pointer, nil when unset. -/
structure SignatureResponse where
  Timestamp : Int
  Proof : Proof
  Signature : List Nat
  roster : Option (List Nat)
deriving DecidableEq, Repr

/-- The handler `Service.SignatureRequest`: adds the message to the pool and
returns a response in which only `Signature` is set, with a nil error. The
result is the new service state, the response and the error (`none` is nil). -/
def Service.SignatureRequest (s : Service) (_si : Nat) (req : SignatureRequest) :
    Service × SignatureResponse × Option String :=
  ({ s with requests := s.requests.Add req.Message },
   { Timestamp := 0, Proof := [], Signature := s.currentSig, roster := none },
   none)

/-! ## `NewProtocol` (`timestamp.go`, lines 93-108) -/

/-- The protocol instance `swupdate.NewCoSiUpdate` creates, as the epoch loop
leaves it: the message given to `SigningMessage`, whether a signature hook is
registered, whether `Dispatch` and `Start` were launched, and (for reference)
the batch `ProofTree` was called on in that iteration. -/
structure CoSiUpdate where
  Message : List Nat
  hook : Bool
  dispatched : Bool
  started : Bool
  batch : List HashID
deriving DecidableEq, Repr

/-- The method `Service.NewProtocol`. It declares `pi` and `err` without a
value (a nil interface and a nil error), registers a constructor under the
name "UpdateCosi" in the protocol registry of `sda`, and returns `pi, err`.
The registry is a list of names; the result is the new registry, the returned
instance (`none` is nil) and the returned error (`none` is nil). -/
def Service.NewProtocol (_s : Service) (registry : List String) (_tn : Nat) (_conf : List Nat) :
    List String × Option CoSiUpdate × Option String :=
  (registry ++ ["UpdateCosi"], none, none)

/-! ## The signing message (`timestamp.go`, lines 172-175) -/

/-- The constant `binary.MaxVarintLen64` of Go's `encoding/binary`. -/
def MaxVarintLen64 : Nat := 10

/-- The loop of Go's `binary.PutUvarint(buf, x)`, at index `i` with `room`
bytes left in `buf` from `i` on: `for x >= 0x80 { buf[i] = byte(x) | 0x80;
x >>= 7; i++ }; buf[i] = byte(x); return i + 1`. Writing at an index with no
room left is Go's index-out-of-range panic, `none`. The result is the buffer
after the writes and the returned count. -/
def PutUvarintFrom : Nat → List Nat → Nat → Nat → Option (List Nat × Nat)
  | 0, _, _, _ => none
  | room + 1, buf, x, i =>
    if 0x80 ≤ x then
      PutUvarintFrom room (buf.set i ((x % 256) ||| 0x80)) (x >>> 7) (i + 1)
    else
      some (buf.set i (x % 256), i + 1)

/-- Go's `binary.PutUvarint(buf, x)`. -/
def PutUvarint (buf : List Nat) (x : Nat) : Option (List Nat × Nat) :=
  PutUvarintFrom buf.length buf x 0

/-- Go's `binary.PutVarint(buf, x)` for an `int64` `x`: `ux := uint64(x) << 1;
if x < 0 { ux = ^ux }; return PutUvarint(buf, ux)`, on 64-bit words. -/
def PutVarint (buf : List Nat) (x : Int) : Option (List Nat × Nat) :=
  let ux := ((x % 2 ^ 64).toNat * 2) % 2 ^ 64
  PutUvarint buf (if x < 0 then 2 ^ 64 - 1 - ux else ux)

/-- The buffer `timeBuf` of `runLoop` after `binary.PutVarint(timeBuf, unix)`,
with the count `PutVarint` returns (which `runLoop` drops). -/
def timeBuf (unix : Int) : Option (List Nat × Nat) :=
  PutVarint (List.replicate MaxVarintLen64 0) unix

/-- The message `msg := append(root, timeBuf)` of `runLoop`, read as
`append(root, timeBuf...)`: the root followed by the whole of `timeBuf`. -/
def signingMessage (root : HashID) (unix : Int) : Option (List Nat) :=
  match timeBuf unix with
  | none => none
  | some (buf, _) => some (root ++ buf)

/-- The bytes `PutVarint` writes for `unix`, the varint encoding of `unix`:
the first `n` bytes of `timeBuf`, for the count `n` that `PutVarint` returns. -/
def varintBytes (unix : Int) : Option (List Nat) :=
  match timeBuf unix with
  | none => none
  | some (buf, n) => some (buf.take n)

/-! ## The epoch loop (`timestamp.go`, lines 153-191) -/

/-- The state of a running service: the `Service` value, whether the goroutine
of `runLoop` is still in its `for` loop, and the protocol instances the loop
has registered and launched, oldest first. -/
structure LoopState where
  svc : Service
  looping : Bool
  instances : List CoSiUpdate
deriving DecidableEq, Repr

/-- The state `newTimestampService` returns: an empty pool, no tree, no
signature, and the loop of `runLoop` launched. -/
def newTimestampService (roster : List Nat) : LoopState :=
  { svc := { requests := { requestData := [] }, roster := roster,
             currentTree := none, currentSig := [] },
    looping := true, instances := [] }

/-- One iteration of the `for now := range c` loop of `runLoop`, for the tick
time `unix = now.Unix()`. `ProofTree` is `crypto.ProofTree(sha256.New, ·)` and
`created` tells whether `swupdate.NewCoSiUpdate` returned a nil error. On an
error the goroutine executes `return nil, errors.New(...)`, which ends it (the
function literal has no result, the statement is read as its `return`);
otherwise it registers the instance,
builds the tree over `requests.GetData()`, stores it as `currentTree`, builds
the message, gives it to the instance, registers the hook and launches
`Dispatch` and `Start`. `none` is a panic of `PutVarint`. -/
def runLoopBody (ProofTree : List HashID → HashID × List Proof) (unix : Int) (created : Bool)
    (ls : LoopState) : Option LoopState :=
  if !ls.looping then some ls
  else if !created then some { ls with looping := false }
  else
    let batch := ls.svc.requests.GetData
    let (root, proofs) := ProofTree batch
    match signingMessage root unix with
    | none => none
    | some msg =>
      some { ls with
        svc := { ls.svc with currentTree := some { root := root, proofs := proofs } },
        instances := ls.instances ++
          [{ Message := msg, hook := true, dispatched := true, started := true,
             batch := batch }] }

/-- The `for now := range c` loop of `runLoop` over the ticks of the channel
`c`, each with its time `now.Unix()` and with whether `NewCoSiUpdate` succeeds
at it, when nothing else touches the service in between. -/
def runLoop (ProofTree : List HashID → HashID × List Proof) :
    LoopState → List (Int × Bool) → Option LoopState
  | ls, [] => some ls
  | ls, p :: ps =>
    match runLoopBody ProofTree p.1 p.2 ls with
    | none => none
    | some ls1 => runLoop ProofTree ls1 ps

/-- The number of goroutines that receive from the channel `response` of
`runLoop`: the channel is local to one iteration and only the hook mentions it,
in a send. -/
def responseReceivers : Nat := 0

/-- The signature hook `func(sig []byte) { response <- sig; s.currentSig = sig }`.
The channel `response` is made by `make(chan []byte)`, without buffer: the send
completes only when a goroutine receives. With no receiver the hook stays
blocked in its first statement and the assignment is not reached. -/
def signatureHook (s : Service) (sig : List Nat) : Service :=
  if 0 < responseReceivers then { s with currentSig := sig } else s

/-- The events of a running service. -/
inductive Event where
  | request (si : Nat) (req : SignatureRequest)
  | epoch (unix : Int) (created : Bool)
  | signature (sig : List Nat)
deriving DecidableEq, Repr

/-- The effect of one event on the state of a running service. -/
def step (ProofTree : List HashID → HashID × List Proof) (ls : LoopState) :
    Event → Option LoopState
  | .request si req => some { ls with svc := (ls.svc.SignatureRequest si req).1 }
  | .epoch unix created => runLoopBody ProofTree unix created ls
  | .signature sig => some { ls with svc := signatureHook ls.svc sig }

/-- The state after a list of events, from `ls`. -/
def run (ProofTree : List HashID → HashID × List Proof) :
    LoopState → List Event → Option LoopState
  | ls, [] => some ls
  | ls, e :: es =>
    match step ProofTree ls e with
    | none => none
    | some ls1 => run ProofTree ls1 es

/-- A stand-in for `crypto.ProofTree` on concrete inputs: the root is the
concatenation of the leaves and every proof is empty. -/
def toyProofTree (data : List HashID) : HashID × List Proof :=
  (data.flatten, data.map (fun _ => []))

end Timestamp

namespace BackForth

/-! ## Trees (`sda`, used by `service_test.go`) -/

/-- Modelled from the spec: the `Tree` type of `sda` is not among the sources.
The spec describes a rooted tree of tree nodes, each with a parent reference
(nil for the root) and an ordered child list. The nodes are numbered from 0,
the root; `parent j` is the parent of a node `j` other than the root. -/
structure Tree where
  size : Nat
  parent : Nat → Nat

/-- A numbering of a rooted tree in which parents come before children: the
tree has a root, and every other node has a parent of smaller number. -/
def Tree.WellFormed (t : Tree) : Prop :=
  0 < t.size ∧ ∀ j, j < t.size → 0 < j → t.parent j < j

/-- Modelled from the spec: `Roster.GenerateBinaryTree` is not among the
sources. The spec lets it place the roster members in a binary tree in roster
order, root = index 0, left = 2i+1, right = 2i+2: the parent of the node of
index `j > 0` is the node of index `(j - 1) / 2`. -/
def GenerateBinaryTree (roster : Nat) : Tree :=
  { size := roster, parent := fun j => (j - 1) / 2 }

/-- The method `Children()` of a tree node instance: the children of node `i`,
in order. -/
def Children (t : Tree) (i : Nat) : List Nat :=
  (List.range t.size).filter (fun j => decide (0 < j) && decide (t.parent j = i))

/-- The method `IsRoot()`: the node has no parent. -/
def IsRoot (i : Nat) : Bool := decide (i = 0)

/-- The method `IsLeaf()`: the node has no children. -/
def IsLeaf (t : Tree) (i : Nat) : Bool := (Children t i).isEmpty

/-! ## The protocol (`service_test.go`, lines 574-666) -/

/-- A message in transit between two nodes: `SimpleMessageForth{Val}` when
`back` is false, `SimpleMessageBack{Val}` when it is true, with the sending
and the receiving node. -/
structure Msg where
  src : Nat
  dst : Nat
  back : Bool
  Val : Int
deriving DecidableEq, Repr

/-- The fields of `BackForthProtocol` that `dispatch` changes on one node: the
`counter`, and whether the goroutine of `dispatch` has not returned yet. -/
structure Node where
  counter : Nat
  running : Bool
deriving DecidableEq, Repr

/-- The state of one run of the protocol over a tree: the nodes, the messages
sent and not yet delivered, the arguments of the calls of the root handler,
and two logs, of every message sent and of every message delivered. -/
structure Run where
  nodes : Nat → Node
  net : List Msg
  handled : List Int
  sent : List Msg
  received : List Msg

/-- The messages of `for _, ch := range sp.Children() { sp.SendTo(ch, msg) }`
on node `i`. -/
def sendForth (t : Tree) (i : Nat) (val : Int) : List Msg :=
  (Children t i).map (fun ch => { src := i, dst := ch, back := false, Val := val })

/-- The message of `sp.SendTo(sp.Parent(), back)` on node `i`: the root has no
parent, its `SendTo` fails and sends nothing. -/
def sendBack (t : Tree) (i : Nat) (val : Int) : List Msg :=
  if IsRoot i then [] else [{ src := i, dst := t.parent i, back := true, Val := val }]

/-- The state after `newBackForthProtocolRoot` and `Start` on the root with
`val`: every node waits in `dispatch` with counter 0 (a node other than the
root is created by `NewProtocol` on its first message), and the root has sent
`SimpleMessageForth{val}` to each of its children. The sends of `Start`, like
those of one round of `dispatch`, are taken together as one step: a send does
not block, reads no state of another node, and its message may stay in transit
for any time. -/
def Start (t : Tree) (val : Int) : Run :=
  { nodes := fun _ => { counter := 0, running := true },
    net := sendForth t 0 val,
    handled := [],
    sent := sendForth t 0 val,
    received := [] }

/-- One round of the `select` of `dispatch` on node `m.dst`, for the message
`m` taken from a channel. A node whose `dispatch` has returned reads nothing.
On a forth message the node sends it on to its children and, when it is a
leaf, sends a back message to its parent and returns. On a back message it
increments the counter and, when the counter equals the number of children,
calls the handler (root) or sends the message to its parent (other nodes),
then calls `Done` and returns. -/
def dispatch (t : Tree) (m : Msg) (s : Run) : Run :=
  let sp := s.nodes m.dst
  if !sp.running then { s with received := s.received ++ [m] }
  else if !m.back then
    let down := sendForth t m.dst m.Val
    if IsLeaf t m.dst then
      let up := sendBack t m.dst m.Val
      { nodes := Function.update s.nodes m.dst { sp with running := false },
        net := s.net ++ down ++ up,
        handled := s.handled,
        sent := s.sent ++ down ++ up,
        received := s.received ++ [m] }
    else
      { s with net := s.net ++ down, sent := s.sent ++ down,
               received := s.received ++ [m] }
  else
    let counter := sp.counter + 1
    if counter = (Children t m.dst).length then
      if IsRoot m.dst then
        { nodes := Function.update s.nodes m.dst { counter := counter, running := false },
          net := s.net,
          handled := s.handled ++ [m.Val],
          sent := s.sent,
          received := s.received ++ [m] }
      else
        let up := sendBack t m.dst m.Val
        { nodes := Function.update s.nodes m.dst { counter := counter, running := false },
          net := s.net ++ up,
          handled := s.handled,
          sent := s.sent ++ up,
          received := s.received ++ [m] }
    else
      { s with nodes := Function.update s.nodes m.dst { sp with counter := counter },
               received := s.received ++ [m] }

/-- Delivery of the `k`-th message in transit to its destination; `none` when
there is no such message. -/
def deliver (t : Tree) (k : Nat) (s : Run) : Option Run :=
  match s.net.get? k with
  | none => none
  | some m => some (dispatch t m { s with net := s.net.eraseIdx k })

/-- The state after the deliveries of a schedule, a list of positions in the
list of messages in transit; a position that holds no message is passed over. -/
def exec (t : Tree) : List Nat → Run → Run
  | [], s => s
  | k :: ks, s =>
    match deliver t k s with
    | none => exec t ks s
    | some s1 => exec t ks s1

/-- The states of a run started at the root with `val`: those some schedule of
deliveries leads to. -/
def Reachable (t : Tree) (val : Int) (s : Run) : Prop :=
  ∃ sched : List Nat, exec t sched (Start t val) = s

/-- Node `j` has sent a back message. -/
def sentBackMsg (s : Run) (j : Nat) : Prop :=
  ∃ m ∈ s.sent, m.back = true ∧ m.src = j

/-- Node `j` has received a back message from node `c`. -/
def receivedBackFrom (s : Run) (j c : Nat) : Prop :=
  ∃ m ∈ s.received, m.back = true ∧ m.src = c ∧ m.dst = j

/-- The number of back messages node `j` has sent to its parent. -/
def backsToParent (t : Tree) (s : Run) (j : Nat) : Nat :=
  s.sent.countP (fun m => m.back && decide (m.src = j) && decide (m.dst = t.parent j))

/-- Every leaf has sent its back message, and every node with children other
than the root has received a back message from each of its children and has
sent exactly one back message to its parent. -/
def allBacksDone (t : Tree) (s : Run) : Prop :=
  (∀ j, j < t.size → IsLeaf t j = true → sentBackMsg s j) ∧
  (∀ j, j < t.size → IsLeaf t j = false → IsRoot j = false →
    (∀ c ∈ Children t j, receivedBackFrom s j c) ∧ backsToParent t s j = 1)

/-- The root has received a back message from each of its children. -/
def rootHasAllBacks (t : Tree) (s : Run) : Prop :=
  ∀ c ∈ Children t 0, receivedBackFrom s 0 c

/-! ## Vocabulary of the proofs -/

/-- The forth message on the edge into node `j`, in a run started with `val`. -/
def forthMsg (t : Tree) (val : Int) (j : Nat) : Msg :=
  { src := t.parent j, dst := j, back := false, Val := val }

/-- The back message on the edge out of node `j`, in a run started with `val`. -/
def backMsg (t : Tree) (val : Int) (j : Nat) : Msg :=
  { src := j, dst := t.parent j, back := true, Val := val }

/-- The deliveries still to come on the edge of a node in a given phase. The
phases of a node other than the root are: 0, its forth message is not sent
yet; 1, it is in transit; 2, the node has it and waits for its children; 3,
the node has sent its back message; 4, the parent has received it. The root is
in phase 2 while it waits and in phase 3 once it has called the handler. -/
def togo : Nat → Nat
  | 0 => 2
  | 1 => 2
  | 2 => 1
  | 3 => 1
  | _ => 0

/-- The phases right after `Start`. -/
def startPhase (t : Tree) (x : Nat) : Nat :=
  if x = 0 then 2 else if t.parent x = 0 then 1 else 0

/-- The phases after node `j` has taken its forth message: `j` goes to phase
`a` and its children to phase 1. -/
def phaseForth (t : Tree) (ph : Nat → Nat) (j a : Nat) (x : Nat) : Nat :=
  if x = j then a else if 0 < x ∧ t.parent x = j then 1 else ph x

/-- The phases after the back message of node `c` has reached its parent, which
goes to phase `a`. -/
def phaseBack (t : Tree) (ph : Nat → Nat) (c a : Nat) (x : Nat) : Nat :=
  if x = c then 4 else if x = t.parent c then a else ph x

/-- The invariant of a run started with `val`, for an assignment `ph` of
phases to the nodes: the messages in transit and delivered are those the
phases tell, the counters count the children in phase 4, a node runs until
phase 3, and the handler has been called once, with `val`, exactly when the
root is in phase 3. -/
structure Inv (t : Tree) (val : Int) (ph : Nat → Nat) (s : Run) : Prop where
  netEdge : ∀ m ∈ s.net, ∃ j, 0 < j ∧ j < t.size ∧ (m = forthMsg t val j ∨ m = backMsg t val j)
  rcvEdge : ∀ m ∈ s.received,
    ∃ j, 0 < j ∧ j < t.size ∧ (m = forthMsg t val j ∨ m = backMsg t val j)
  netF : ∀ j, 0 < j → j < t.size → s.net.count (forthMsg t val j) = if ph j = 1 then 1 else 0
  netB : ∀ j, 0 < j → j < t.size → s.net.count (backMsg t val j) = if ph j = 3 then 1 else 0
  rcvF : ∀ j, 0 < j → j < t.size →
    s.received.count (forthMsg t val j) = if 2 ≤ ph j then 1 else 0
  rcvB : ∀ j, 0 < j → j < t.size →
    s.received.count (backMsg t val j) = if ph j = 4 then 1 else 0
  sentPerm : s.sent.Perm (s.received ++ s.net)
  phLe : ∀ x, x < t.size → ph x ≤ 4
  phRoot : ph 0 = 2 ∨ ph 0 = 3
  rootDone : ph 0 = 3 → Children t 0 ≠ []
  p1 : ∀ x, 0 < x → x < t.size → ph (t.parent x) ≤ 1 → ph x = 0
  p2 : ∀ x, 0 < x → x < t.size → 2 ≤ ph (t.parent x) → 1 ≤ ph x
  p3 : ∀ x, 0 < x → x < t.size → 3 ≤ ph (t.parent x) → ph x = 4
  p4 : ∀ x, x < t.size → ph x = 2 →
    (x = 0 ∧ Children t 0 = []) ∨ ∃ c ∈ Children t x, ph c ≠ 4
  counter : ∀ i, i < t.size →
    (s.nodes i).counter = (Children t i).countP (fun c => decide (ph c = 4))
  running : ∀ i, i < t.size → ((s.nodes i).running = true ↔ ph i < 3)
  handled : s.handled = if ph 0 = 3 then [val] else []
  measure : s.received.length + ∑ j in Finset.range t.size, togo (ph j) = 2 * t.size - 1

end BackForth

namespace Sda

/-! ## The service registry (`sda`, used by `service_test.go`, lines 14-37) -/

/-- Modelled from the spec: the registry `ServiceFactory` of `sda` is not among
the sources. The spec describes a process-wide registry that maps a service
name to its factory. The registry is the list of its bindings, oldest first;
a factory is a number that names it. -/
structure serviceFactory where
  constructors : List (String × Nat)
deriving DecidableEq, Repr

/-- Modelled from the spec: `RegisterNewService(name, factory)` is not among
the sources; the spec lets it insert the binding of `name` in the registry,
in the place of any binding `name` had. -/
def RegisterNewService (r : serviceFactory) (name : String) (fn : Nat) : serviceFactory :=
  { constructors := r.constructors.filter (fun b => decide (b.1 ≠ name)) ++ [(name, fn)] }

/-- Modelled from the spec: `DeleteNewService(name)` is not among the sources;
the spec lets it remove the binding of `name` from the registry. -/
def DeleteNewService (r : serviceFactory) (name : String) : serviceFactory :=
  { constructors := r.constructors.filter (fun b => decide (b.1 ≠ name)) }

/-- Modelled from the spec: `ServiceFactory.RegisteredServicesName()` is not
among the sources; the test reads from it the names of the registered
services. -/
def RegisteredServicesName (r : serviceFactory) : List String :=
  r.constructors.map (fun b => b.1)

end Sda

namespace Network

/-! ## The handshake of the router (`network`, used by `router_test.go`, lines 170-213) -/

/-- Modelled from the spec: the `ServerIdentity` type of `network` is not among
the sources. The spec describes a public key plus a reachable address. -/
structure ServerIdentity where
  Public : Nat
  Address : String
deriving DecidableEq, Repr

/-- Modelled from the spec: identity equality is by public key. -/
def ServerIdentity.Equal (a b : ServerIdentity) : Bool :=
  decide (a.Public = b.Public)

/-- Modelled from the spec: the accepting side of the handshake is not among
the sources. The spec lets the acceptor reply to the identity the dialer sent
with its own identity and that identity. -/
def acceptOpen (self received : ServerIdentity) : ServerIdentity × ServerIdentity :=
  (self, received)

/-- Modelled from the spec: `Router.negotiateOpen(si, c)` is not among the
sources. The spec lets the dialer send its identity on the connection, read
the reply of the router it reached, compare the identity in the reply with
the identity `si` it expected, and abort with `WrongPeer` on a mismatch. The
connection is given by the identity `reached` of the router at its other end;
the result is the error, `none` for nil. -/
def negotiateOpen (dialer si reached : ServerIdentity) : Option String :=
  let reply := acceptOpen reached dialer
  if reply.1.Equal si then none else some "WrongPeer"

end Network

namespace SshKss

/-! ## Data model (`ssh-kss.go`, lines 26-33) -/

/-- The type `identity.Identity` is not among the sources; these are the fields
this program reads: the identifier `ID`, and the values of `Config.Data`, the
ssh keys, in the order `range` yields them. A Go string is a list of
characters. -/
structure Identity where
  ID : List Nat
  Data : List (List Char)
deriving DecidableEq, Repr

/-- The `servers` struct. -/
structure servers where
  PathSSH : List Char
  IDs : List Identity
deriving DecidableEq, Repr

/-- A decoded message, the `network.Body` that `UnmarshalRegistered` returns:
a `servers` value, or a value of another registered type. -/
inductive Body where
  | servers (v : servers)
  | other
deriving DecidableEq, Repr

/-- The state of the program and of the files it uses: the variable
`serverKS`, the content of the file named by `configFile` (`none` when the
file does not exist), and the text files by name. A file either does not
exist or can be read and written. -/
structure World where
  serverKS : servers
  configFile : Option (List Nat)
  files : List Char → Option (List Char)

/-! ## Strings (`strings`, `bytes` of the Go library) -/

/-- Go's `strings.Split(s, "\n")`. -/
def Split (s : List Char) : List (List Char) :=
  s.splitOn '\n'

/-- Go's `strings.Join(lines, "\n")`. -/
def Join (lines : List (List Char)) : List Char :=
  List.intercalate ['\n'] lines

/-- Go's `unicode.IsSpace`: the characters with the Unicode property
White_Space. -/
def isSpace (c : Char) : Bool :=
  let n := c.toNat
  (decide (0x09 ≤ n) && decide (n ≤ 0x0D)) || n == 0x20 || n == 0x85 || n == 0xA0 ||
  n == 0x1680 || (decide (0x2000 ≤ n) && decide (n ≤ 0x200A)) || n == 0x2028 ||
  n == 0x2029 || n == 0x202F || n == 0x205F || n == 0x3000

/-- Go's `strings.TrimSpace`: the string without its leading and trailing
white space. -/
def TrimSpace (s : List Char) : List Char :=
  ((s.dropWhile isSpace).reverse.dropWhile isSpace).reverse

/-- Go's `bytes.Contains(buf, sub)`: `sub` occurs in `buf`. -/
def Contains : List Char → List Char → Bool
  | [], sub => sub.isEmpty
  | c :: cs, sub => sub.isPrefixOf (c :: cs) || Contains cs sub

/-! ## The file `authorized_keys` (`ssh-kss.go`, lines 184-235) -/

/-- Go's `ioutil.WriteFile(file, content, 0660)`. -/
def WriteFile (files : List Char → Option (List Char)) (file content : List Char) :
    List Char → Option (List Char) :=
  Function.update files file (some content)

/-- The function `grep`: false when the file cannot be read, else whether the
file contains `str`. -/
def grep (files : List Char → Option (List Char)) (fileName str : List Char) : Bool :=
  match files fileName with
  | none => false
  | some buf => Contains buf str

/-- The loop `for _, l := range lines { found = found || (l == str) }` of
`addLine`. -/
def foundLine (lines : List (List Char)) (str : List Char) : Bool :=
  lines.foldl (fun found l => found || decide (l = str)) false

/-- The function `addLine`: reads the file (an unreadable file reads as empty),
and unless one of its lines is `str`, writes the content followed by `str`
and a newline. -/
def addLine (files : List Char → Option (List Char)) (file str : List Char) :
    List Char → Option (List Char) :=
  let content := (files file).getD []
  if !foundLine (Split content) str then
    WriteFile files file (content ++ (str ++ ['\n']))
  else files

/-- The function `deleteLine`: with `str` the trimmed argument, does nothing
when `grep` does not find `str` in the file; else writes back the lines of the
file other than `str`, joined by newlines. -/
def deleteLine (files : List Char → Option (List Char)) (file strOrig : List Char) :
    List Char → Option (List Char) :=
  let str := TrimSpace strOrig
  if !grep files file str then files
  else
    let content := (files file).getD []
    let lines := (Split content).filter (fun l => decide (l ≠ str))
    WriteFile files file (Join lines)

/-- The body of the loops of `updateAllow` for one ssh key. -/
def updateAllowKey (add : Bool) (ak : List Char) (files : List Char → Option (List Char))
    (ssh : List Char) : List Char → Option (List Char) :=
  if add then
    if !grep files ak ssh then addLine files ak ssh else files
  else deleteLine files ak ssh

/-- The function `updateAllow`: for every key of every identity, in order,
adds the key to `PathSSH/authorized_keys` unless `grep` finds it (`add`), or
deletes it from that file. -/
def updateAllow (add : Bool) (w : World) : World :=
  let ak := w.serverKS.PathSSH ++ "/authorized_keys".toList
  { w with files :=
      (w.serverKS.IDs.foldl
        (fun files id => id.Data.foldl (updateAllowKey add ak) files) w.files) }

/-! ## The commands (`ssh-kss.go`, lines 124-182 and 237-241) -/

/-- The loop of `delID` that looks for the identity, from the index `idCnt`:
`idFound` becomes the index of each identity whose `ID` equals `idHex`. -/
def idFoundFrom (idHex : List Nat) : List Identity → Int → Int → Int
  | [], _, idFound => idFound
  | id :: rest, idCnt, idFound =>
    idFoundFrom idHex rest (idCnt + 1) (if id.ID = idHex then idCnt else idFound)

/-- The command `list`: it prints the identities and changes nothing. -/
def list (w : World) : World := w

/-- The command `delId` for the decoded argument `idHex`: with `idFound` the
index the loop ends with, from -1, it lists and returns when `idFound` is -1;
else it calls `updateAllow(false)`, takes the identity of index `idFound` out
of `serverKS.IDs`, calls `updateAllow(true)` and lists. -/
def delID (idHex : List Nat) (w : World) : World :=
  let idFound := idFoundFrom idHex w.serverKS.IDs 0 (-1)
  if idFound = -1 then list w
  else
    let w1 := updateAllow false w
    let w2 := { w1 with serverKS := { w1.serverKS with
      IDs := w1.serverKS.IDs.take idFound.toNat ++ w1.serverKS.IDs.drop (idFound.toNat + 1) } }
    list (updateAllow true w2)

/-- The command `addId` when none of its steps is fatal, for the identity
`iden` that `identity.NewIdentityFromCothority` returns and the directory
`path` of the `config` flag: `updateAllow(false)`, the identity appended,
`PathSSH` set, `updateAllow(true)`, and the list. -/
def addID (iden : Identity) (path : List Char) (w : World) : World :=
  let w1 := updateAllow false w
  let w2 := { w1 with serverKS := { PathSSH := path, IDs := w1.serverKS.IDs ++ [iden] } }
  list (updateAllow true w2)

/-- The command `update` when no `ConfigUpdate` fails, with `updated` the
identity each `ConfigUpdate` leaves in the place of its receiver. -/
def update (updated : Identity → Identity) (w : World) : World :=
  let w1 := updateAllow false w
  let w2 := { w1 with serverKS := { w1.serverKS with IDs := w1.serverKS.IDs.map updated } }
  list (updateAllow true w2)

/-- The commands of the program, with what they get from their arguments and
from the network. -/
inductive Command where
  | addId (iden : Identity) (path : List Char)
  | delId (idHex : List Nat)
  | update (updated : Identity → Identity)
  | list

/-- The action of a command. -/
def runCommand : Command → World → World
  | .addId iden path, w => addID iden path w
  | .delId idHex, w => delID idHex w
  | .update updated, w => update updated w
  | .list, w => list w

/-! ## The config file (`ssh-kss.go`, lines 92-122) -/

/-- The function `saveConfig`, for `marshal` the function
`network.MarshalRegisteredType`: an error of `marshal` is fatal (`none`), else
the buffer is written to the config file. -/
def saveConfig (marshal : servers → Except String (List Nat)) (w : World) : Option World :=
  match marshal w.serverKS with
  | .error _ => none
  | .ok buf => some { w with configFile := some buf }

/-- The function `loadConfig`, for `unmarshal` the function
`network.UnmarshalRegistered`: nil when the file does not exist; the error of
`unmarshal` when it fails; else the message, asserted to be a `servers`
value, becomes `serverKS`. The result is the new state and the returned error
(`none` is nil); a failed type assertion is a panic, `none`. -/
def loadConfig (unmarshal : List Nat → Except String Body) (w : World) :
    Option (World × Option String) :=
  match w.configFile with
  | none => some (w, none)
  | some buf =>
    match unmarshal buf with
    | .error e => some (w, some e)
    | .ok (Body.servers v) => some ({ w with serverKS := v }, none)
    | .ok Body.other => none

/-- The function `app.After`: saves the config when at least one identity is
registered. -/
def appAfter (marshal : servers → Except String (List Nat)) (w : World) : Option World :=
  if 0 < w.serverKS.IDs.length then saveConfig marshal w else some w

/-! ## A codec for concrete inputs -/

/-- The lists of numbers that stand for a `servers` value in `toyMarshal`. -/
def toyFields (v : servers) : List Nat × List (List Nat × List (List Nat)) :=
  (v.PathSSH.map Char.toNat,
   v.IDs.map (fun id => (id.ID, id.Data.map (fun k => k.map Char.toNat))))

/-- The `servers` value of lists of numbers, the inverse of `toyFields`. -/
def toyValue (p : List Nat × List (List Nat × List (List Nat))) : servers :=
  { PathSSH := p.1.map Char.ofNat,
    IDs := p.2.map (fun id => { ID := id.1, Data := id.2.map (fun k => k.map Char.ofNat) }) }

/-- A stand-in for `network.MarshalRegisteredType` on concrete inputs: the
buffer holds one number, the code of the fields of the value. -/
def toyMarshal (v : servers) : Except String (List Nat) :=
  .ok [Encodable.encode (toyFields v)]

/-- A stand-in for `network.UnmarshalRegistered` on concrete inputs, the
decoder of `toyMarshal`. -/
def toyUnmarshal : List Nat → Except String Body
  | [n] =>
    match (Encodable.decode n : Option (List Nat × List (List Nat × List (List Nat)))) with
    | some p => .ok (Body.servers (toyValue p))
    | none => .error "UnknownType"
  | _ => .error "EncodingError"

end SshKss

/-! # Properties of the timestamp service -/

namespace Timestamp

/-- With room for `room` bytes from index `i` and `x` below `128 ^ room`, the
loop of `PutUvarint` ends without panic, writes only below the returned count
and keeps the length of the buffer. -/
theorem PutUvarintFrom_writes (room : Nat) : ∀ (buf : List Nat) (x i : Nat),
    0 < room → x < 128 ^ room → i + room ≤ buf.length →
    ∃ out n, PutUvarintFrom room buf x i = some (out, n) ∧ i < n ∧ n ≤ i + room ∧
      out.length = buf.length ∧ out.drop n = buf.drop n := by
  induction room with
  | zero => intro _ _ _ h; exact absurd h (Nat.lt_irrefl 0)
  | succ r ih =>
    intro buf x i _ hx hlen
    unfold PutUvarintFrom
    by_cases hbig : 0x80 ≤ x
    · rw [if_pos hbig]
      have hr : 0 < r := by
        rcases Nat.eq_zero_or_pos r with h0 | h0
        · subst h0; simp at hx; omega
        · exact h0
      have hx2 : x >>> 7 < 128 ^ r := by
        rw [Nat.shiftRight_eq_div_pow]
        apply Nat.div_lt_of_lt_mul
        have : 128 ^ (r + 1) = 2 ^ 7 * 128 ^ r := by rw [pow_succ]; ring
        omega
      obtain ⟨out, n, he, h1, h2, h3, h4⟩ :=
        ih (buf.set i ((x % 256) ||| 0x80)) (x >>> 7) (i + 1) hr hx2
          (by rw [List.length_set]; omega)
      refine ⟨out, n, he, by omega, by omega, ?_, ?_⟩
      · rw [h3, List.length_set]
      · rw [h4]; exact List.drop_set_of_lt _ _ (by omega)
    · rw [if_neg hbig]
      refine ⟨_, _, rfl, by omega, by omega, by rw [List.length_set], ?_⟩
      exact List.drop_set_of_lt _ _ (by omega)

/-- The buffer `timeBuf` after `PutVarint`: no panic, between 1 and 10 bytes
written, 10 bytes in all, and zeros after the bytes written. -/
theorem timeBuf_written (unix : Int) :
    ∃ buf n, timeBuf unix = some (buf, n) ∧ 1 ≤ n ∧ n ≤ MaxVarintLen64 ∧
      buf.length = MaxVarintLen64 ∧ buf.drop n = List.replicate (MaxVarintLen64 - n) 0 := by
  have hux : ∀ u : Nat, (if unix < 0 then 2 ^ 64 - 1 - u % 2 ^ 64 else u % 2 ^ 64) < 128 ^ 10 := by
    intro u
    have h1 : u % 2 ^ 64 < 2 ^ 64 := Nat.mod_lt _ (by norm_num)
    have h2 : (2 : Nat) ^ 64 ≤ 128 ^ 10 := by norm_num
    split <;> omega
  obtain ⟨out, n, he, h1, h2, h3, h4⟩ :=
    PutUvarintFrom_writes 10 (List.replicate 10 0) _ 0 (by norm_num)
      (hux ((unix % 2 ^ 64).toNat * 2)) (by simp)
  refine ⟨out, n, ?_, by omega, by simpa [MaxVarintLen64] using h2, ?_, ?_⟩
  · simpa [timeBuf, PutVarint, PutUvarint, MaxVarintLen64] using he
  · simpa [MaxVarintLen64] using h3
  · rw [h4]; exact List.drop_replicate _ _ _

/-- The signing message is always built: the root followed by the ten bytes of
`timeBuf`. -/
theorem signingMessage_built (root : HashID) (unix : Int) :
    ∃ buf n, timeBuf unix = some (buf, n) ∧ signingMessage root unix = some (root ++ buf) ∧
      buf.length = MaxVarintLen64 := by
  obtain ⟨buf, n, he, _, _, hl, _⟩ := timeBuf_written unix
  exact ⟨buf, n, he, by simp [signingMessage, he], hl⟩

/-- A tick of a loop that is still running, with the instance created, stores
the tree of the pool as the current tree and launches one instance on the
message built from its root; the pool, the signature and the loop go on as
they were. -/
theorem runLoopBody_created (ProofTree : List HashID → HashID × List Proof) (unix : Int)
    (ls : LoopState) (h : ls.looping = true) :
    ∃ msg, signingMessage (ProofTree ls.svc.requests.GetData).1 unix = some msg ∧
      runLoopBody ProofTree unix true ls = some
        { svc := { requests := ls.svc.requests, roster := ls.svc.roster,
                   currentTree := some { root := (ProofTree ls.svc.requests.GetData).1,
                                         proofs := (ProofTree ls.svc.requests.GetData).2 },
                   currentSig := ls.svc.currentSig },
          looping := true,
          instances := ls.instances ++
            [{ Message := msg, hook := true, dispatched := true, started := true,
               batch := ls.svc.requests.GetData }] } := by
  obtain ⟨buf, n, _, hm, _⟩ := signingMessage_built (ProofTree ls.svc.requests.GetData).1 unix
  refine ⟨_, hm, ?_⟩
  simp only [runLoopBody, h, Bool.not_true, Bool.false_eq_true, if_false, hm]

/-- A loop that has returned ignores every later tick. -/
theorem runLoop_stopped (ProofTree : List HashID → HashID × List Proof)
    (ticks : List (Int × Bool)) : ∀ ls : LoopState, ls.looping = false →
    runLoop ProofTree ls ticks = some ls := by
  induction ticks with
  | nil => intro ls _; rfl
  | cons p ps ih =>
    intro ls h
    have hs : runLoopBody ProofTree p.1 p.2 ls = some ls := by
      simp [runLoopBody, h]
    simp only [runLoop, hs]
    exact ih ls h

end Timestamp

namespace Timestamp

/-- C1: the `SignatureRequest` handler leaves the pool equal to its previous
contents followed by `req.Message`, returns a nil error, and returns a response
with `Timestamp` 0, a nil `Proof` and the current signature of the service; the
rest of the service is unchanged. -/
theorem signatureRequest_appends (s : Service) (si : Nat) (req : SignatureRequest) :
    (s.SignatureRequest si req).1.requests.requestData
        = s.requests.requestData ++ [req.Message] ∧
    (s.SignatureRequest si req).2.2 = none ∧
    (s.SignatureRequest si req).2.1.Timestamp = 0 ∧
    (s.SignatureRequest si req).2.1.Proof = [] ∧
    (s.SignatureRequest si req).2.1.Signature = s.currentSig ∧
    (s.SignatureRequest si req).1.currentSig = s.currentSig ∧
    (s.SignatureRequest si req).1.currentTree = s.currentTree :=
  ⟨rfl, rfl, rfl, rfl, rfl, rfl, rfl⟩

/-- C2, as stated, fails for the payload `[1]`: after `Add` on the empty pool,
`reset` leaves the pool empty but returns no snapshot that holds the payload. -/
theorem reset_returns_no_snapshot :
    ¬ (((requestPool.mk []).Add [1]).reset.requestData = [] ∧
       ∃ snap, ((requestPool.mk []).Add [1]).resetResult = some snap ∧
         snap.count [1] = 1) := by
  rintro ⟨_, snap, h, _⟩
  simp [requestPool.resetResult] at h

/-- C2, amended: for every payload `x`, `Add(x)` on an empty pool and then
`reset()` leave the pool empty; `reset()` returns nothing, and the contents of
the pool before the reset, as `GetData()` returns them, hold `x` exactly once. -/
theorem add_then_reset (x : List Nat) :
    ((requestPool.mk []).Add x).reset.requestData = [] ∧
    ((requestPool.mk []).Add x).resetResult = none ∧
    ((requestPool.mk []).Add x).GetData = [x] ∧
    ((requestPool.mk []).Add x).GetData.count x = 1 := by
  refine ⟨rfl, rfl, rfl, ?_⟩
  simp [requestPool.Add, requestPool.GetData]

/-- C3 on the code: a payload `x` submitted once is in the batch of every later
epoch. After one request and two ticks the loop has built its tree twice over
the batch `[x]`, and the pool still holds `x`. -/
theorem payload_in_two_epochs (ProofTree : List HashID → HashID × List Proof)
    (roster : List Nat) (si : Nat) (x : List Nat) (t1 t2 : Int) :
    ∃ ls, run ProofTree (newTimestampService roster)
        [Event.request si { Message := x }, Event.epoch t1 true, Event.epoch t2 true] = some ls ∧
      ls.instances.map CoSiUpdate.batch = [[x], [x]] ∧
      ls.svc.requests.requestData = [x] := by
  obtain ⟨m1, _, h1⟩ := runLoopBody_created ProofTree t1
    { svc := { requests := { requestData := [x] }, roster := roster,
               currentTree := none, currentSig := [] },
      looping := true, instances := [] } rfl
  obtain ⟨m2, _, h2⟩ := runLoopBody_created ProofTree t2
    { svc := { requests := { requestData := [x] }, roster := roster,
               currentTree := some { root := (ProofTree [x]).1, proofs := (ProofTree [x]).2 },
               currentSig := [] },
      looping := true,
      instances := [{ Message := m1, hook := true, dispatched := true, started := true,
                      batch := [x] }] } rfl
  simp only [requestPool.GetData, List.nil_append] at h1 h2
  refine ⟨{ svc := { requests := { requestData := [x] }, roster := roster,
                     currentTree := some { root := (ProofTree [x]).1, proofs := (ProofTree [x]).2 },
                     currentSig := [] },
            looping := true,
            instances := [{ Message := m1, hook := true, dispatched := true, started := true,
                            batch := [x] },
                          { Message := m2, hook := true, dispatched := true, started := true,
                            batch := [x] }] }, ?_, rfl, rfl⟩
  simp only [run, step, newTimestampService, Service.SignatureRequest, requestPool.Add,
    List.nil_append, h1, h2, List.cons_append]

/-- C4, as stated, fails on a fresh service: at a tick with an empty pool the
loop launches a protocol instance and replaces the (nil) current tree. -/
theorem empty_tick_not_skipped :
    ¬ (∃ ls, runLoopBody toyProofTree 0 true (newTimestampService []) = some ls ∧
        ls.instances = (newTimestampService []).instances ∧
        ls.svc.currentTree = (newTimestampService []).svc.currentTree ∧
        ls.svc.currentSig = (newTimestampService []).svc.currentSig) := by
  decide

/-- C4, amended: at a tick with an empty pool the loop does not skip. When the
collective-signing instance is created without error, the loop registers and
launches it on the message built from the root of `ProofTree` over the empty
batch, and stores that tree as the current tree; the current signature and the
pool are unchanged. -/
theorem empty_tick_runs (ProofTree : List HashID → HashID × List Proof) (unix : Int)
    (ls : LoopState) (hloop : ls.looping = true) (hempty : ls.svc.requests.requestData = []) :
    ∃ ls1 msg, runLoopBody ProofTree unix true ls = some ls1 ∧
      signingMessage (ProofTree []).1 unix = some msg ∧
      ls1.instances = ls.instances ++
        [{ Message := msg, hook := true, dispatched := true, started := true, batch := [] }] ∧
      ls1.svc.currentTree = some { root := (ProofTree []).1, proofs := (ProofTree []).2 } ∧
      ls1.svc.currentSig = ls.svc.currentSig ∧
      ls1.svc.requests = ls.svc.requests ∧
      ls1.looping = true := by
  obtain ⟨msg, hm, ht⟩ := runLoopBody_created ProofTree unix ls hloop
  have hb : ls.svc.requests.GetData = [] := hempty
  rw [hb] at hm ht
  exact ⟨_, msg, ht, hm, rfl, rfl, rfl, rfl, rfl⟩

/-- Witness of `empty_tick_runs`: the first tick of a fresh service. -/
theorem empty_tick_runs_witness :
    ∃ ls1 msg, runLoopBody toyProofTree 5 true (newTimestampService [1, 2]) = some ls1 ∧
      signingMessage (toyProofTree []).1 5 = some msg ∧
      ls1.instances = (newTimestampService [1, 2]).instances ++
        [{ Message := msg, hook := true, dispatched := true, started := true, batch := [] }] ∧
      ls1.svc.currentTree =
        some { root := (toyProofTree []).1, proofs := (toyProofTree []).2 } ∧
      ls1.svc.currentSig = (newTimestampService [1, 2]).svc.currentSig ∧
      ls1.svc.requests = (newTimestampService [1, 2]).svc.requests ∧
      ls1.looping = true :=
  empty_tick_runs toyProofTree 5 (newTimestampService [1, 2]) rfl rfl

/-- C5, as stated, fails for the root `[1, 2]` and the time 0: the varint
encoding of 0 is the one byte 0, and the message is the root followed by ten
bytes, not by one. -/
theorem signingMessage_padded :
    varintBytes 0 = some [0] ∧
    signingMessage [1, 2] 0 = some [1, 2, 0, 0, 0, 0, 0, 0, 0, 0, 0, 0] ∧
    signingMessage [1, 2] 0 ≠ (varintBytes 0).map (fun v => [1, 2] ++ v) ∧
    ¬ (∃ msg v, signingMessage [1, 2] 0 = some msg ∧ varintBytes 0 = some v ∧
        msg.length = [1, 2].length + v.length) := by
  have hm : signingMessage [1, 2] 0 = some [1, 2, 0, 0, 0, 0, 0, 0, 0, 0, 0, 0] := by decide
  have hv : varintBytes 0 = some [0] := by decide
  refine ⟨hv, hm, by decide, ?_⟩
  rintro ⟨msg, v, h1, h2, h3⟩
  rw [hm] at h1
  rw [hv] at h2
  cases h1
  cases h2
  simp at h3

/-- C5, amended: for every root and every tick time, the message handed to the
collective-signing protocol is the root followed by the ten bytes
(`binary.MaxVarintLen64`) of `timeBuf`: the varint encoding of `now.Unix()`,
of 1 to 10 bytes, followed by zeros up to ten bytes. Its length is `len(root)`
plus 10. -/
theorem signingMessage_layout (root : HashID) (unix : Int) :
    ∃ msg v, signingMessage root unix = some msg ∧ varintBytes unix = some v ∧
      1 ≤ v.length ∧ v.length ≤ MaxVarintLen64 ∧
      msg = root ++ v ++ List.replicate (MaxVarintLen64 - v.length) 0 ∧
      msg.length = root.length + MaxVarintLen64 := by
  obtain ⟨buf, n, he, h1, h2, hl, hd⟩ := timeBuf_written unix
  have hv : (buf.take n).length = n := by rw [List.length_take, hl]; omega
  refine ⟨root ++ buf, buf.take n, by simp [signingMessage, he], by simp [varintBytes, he],
    by omega, by omega, ?_, ?_⟩
  · rw [hv, ← hd, List.append_assoc, List.take_append_drop]
  · rw [List.length_append, hl]

/-- C6 on the code: when `NewCoSiUpdate` returns an error at a tick, the
goroutine of the epoch loop returns. The signature is unchanged, the loop is no
longer running, and no later tick launches an instance or changes anything,
whatever its time and whether or not an instance could be created then. -/
theorem failed_creation_stops_loop (ProofTree : List HashID → HashID × List Proof)
    (svc : Service) (insts : List CoSiUpdate) (unix : Int) (later : List (Int × Bool)) :
    runLoop ProofTree { svc := svc, looping := true, instances := insts }
        ((unix, false) :: later)
      = some { svc := svc, looping := false, instances := insts } := by
  have hs : runLoopBody ProofTree unix false { svc := svc, looping := true, instances := insts }
      = some { svc := svc, looping := false, instances := insts } := by
    simp [runLoopBody]
  simp only [runLoop, hs]
  exact runLoop_stopped ProofTree later _ rfl

/-- C7, as stated, fails on a fresh service: the first tick replaces the (nil)
current tree at once, with no signature obtained and the current signature
still nil. -/
theorem tree_replaced_before_signature :
    ¬ (∀ ls, step toyProofTree (newTimestampService []) (Event.epoch 0 true) = some ls →
        ls.svc.currentTree = (newTimestampService []).svc.currentTree) ∧
    (∃ ls, step toyProofTree (newTimestampService []) (Event.epoch 0 true) = some ls ∧
        ls.svc.currentTree = some { root := [], proofs := [] } ∧ ls.svc.currentSig = []) := by
  decide

/-- C7, amended: the service replaces its current tree (root and proofs) at
the tick, as soon as the tree of the batch is built and before any signature
is obtained, and the tick leaves the current signature as it was. No event
other than the signature hook changes the current signature, and no event
other than a tick with a created instance changes the current tree: an epoch
whose signature never arrives has replaced the tree and kept the signature. -/
theorem tree_replaced_at_tick (ProofTree : List HashID → HashID × List Proof)
    (ls ls1 : LoopState) (e : Event) (h : step ProofTree ls e = some ls1) :
    ((∀ sig, e ≠ Event.signature sig) → ls1.svc.currentSig = ls.svc.currentSig) ∧
    (∀ unix, e = Event.epoch unix true → ls.looping = true →
      ls1.svc.currentTree = some { root := (ProofTree ls.svc.requests.GetData).1,
                                   proofs := (ProofTree ls.svc.requests.GetData).2 } ∧
      ls1.svc.currentSig = ls.svc.currentSig) ∧
    ((∀ unix, e ≠ Event.epoch unix true) → ls1.svc.currentTree = ls.svc.currentTree) := by
  cases e with
  | request si req =>
    simp only [step, Option.some.injEq] at h
    subst h
    exact ⟨fun _ => rfl, fun _ he => (by cases he), fun _ => rfl⟩
  | signature sig =>
    simp only [step, Option.some.injEq] at h
    subst h
    refine ⟨fun hne => absurd rfl (hne sig), fun _ he => (by cases he), fun _ => ?_⟩
    simp only [signatureHook]
    split <;> rfl
  | epoch unix created =>
    cases created with
    | true =>
      refine ⟨fun _ => ?_, fun u _ hloop => ?_, fun hne => absurd rfl (hne unix)⟩
      · cases hl : ls.looping with
        | false =>
          have : ls1 = ls := by simpa [step, runLoopBody, hl] using h.symm
          rw [this]
        | true =>
          obtain ⟨msg, _, ht⟩ := runLoopBody_created ProofTree unix ls hl
          rw [step, ht, Option.some.injEq] at h
          subst h
          rfl
      · obtain ⟨msg, _, ht⟩ := runLoopBody_created ProofTree unix ls hloop
        rw [step, ht, Option.some.injEq] at h
        subst h
        exact ⟨rfl, rfl⟩
    | false =>
      have hcases : ls1 = ls ∨ ls1 = { ls with looping := false } := by
        cases hl : ls.looping with
        | false => left; simpa [step, runLoopBody, hl] using h.symm
        | true => right; simpa [step, runLoopBody, hl] using h.symm
      refine ⟨fun _ => ?_, fun _ he => (by cases he), fun _ => ?_⟩ <;>
        rcases hcases with h1 | h1 <;> rw [h1]

/-- Witness of `tree_replaced_at_tick`: the first tick of a fresh service with
the roster `[1, 2]`, at time 5. -/
theorem tree_replaced_at_tick_witness :
    step toyProofTree (newTimestampService [1, 2]) (Event.epoch 5 true) = some
      { svc := { requests := { requestData := [] }, roster := [1, 2],
                 currentTree := some { root := [], proofs := [] }, currentSig := [] },
        looping := true,
        instances := [{ Message := [10, 0, 0, 0, 0, 0, 0, 0, 0, 0], hook := true,
                        dispatched := true, started := true, batch := [] }] } ∧
    (some { root := [], proofs := [] } : Option tree)
      = some { root := (toyProofTree (newTimestampService [1, 2]).svc.requests.GetData).1,
               proofs := (toyProofTree (newTimestampService [1, 2]).svc.requests.GetData).2 } ∧
    ([] : List Nat) = (newTimestampService [1, 2]).svc.currentSig :=
  ⟨by decide,
   ((tree_replaced_at_tick toyProofTree (newTimestampService [1, 2])
      { svc := { requests := { requestData := [] }, roster := [1, 2],
                 currentTree := some { root := [], proofs := [] }, currentSig := [] },
        looping := true,
        instances := [{ Message := [10, 0, 0, 0, 0, 0, 0, 0, 0, 0], hook := true,
                        dispatched := true, started := true, batch := [] }] }
      (Event.epoch 5 true) (by decide)).2.1 5 rfl rfl)⟩

/-- C8 on the code: for every tree node instance and configuration,
`NewProtocol` returns a nil protocol instance and a nil error; it only adds the
name "UpdateCosi" to the protocol registry. -/
theorem newProtocol_returns_nil (s : Service) (registry : List String) (tn : Nat)
    (conf : List Nat) :
    (s.NewProtocol registry tn conf).2.1 = none ∧
    (s.NewProtocol registry tn conf).2.2 = none ∧
    (s.NewProtocol registry tn conf).1 = registry ++ ["UpdateCosi"] :=
  ⟨rfl, rfl, rfl⟩

end Timestamp

/-! # Properties of the back-forth protocol -/

namespace BackForth

/-- Membership in the list of children. -/
theorem mem_Children (t : Tree) (i c : Nat) :
    c ∈ Children t i ↔ c < t.size ∧ 0 < c ∧ t.parent c = i := by
  simp [Children, List.mem_filter, List.mem_range]

/-- The list of children has no repetition. -/
theorem nodup_Children (t : Tree) (i : Nat) : (Children t i).Nodup :=
  (List.nodup_range _).filter _

/-- In a well-formed tree with two nodes or more, node 1 is a child of the root. -/
theorem one_mem_Children (t : Tree) (hwf : t.WellFormed) (h : 2 ≤ t.size) :
    1 ∈ Children t 0 := by
  rw [mem_Children]
  have := hwf.2 1 (by omega) (by omega)
  omega

theorem forthMsg_inj (t : Tree) (val : Int) : Function.Injective (forthMsg t val) := by
  intro a b h
  simpa [forthMsg] using congrArg Msg.dst h

theorem backMsg_inj (t : Tree) (val : Int) : Function.Injective (backMsg t val) := by
  intro a b h
  simpa [backMsg] using congrArg Msg.src h

theorem forthMsg_ne_backMsg (t : Tree) (val : Int) (a b : Nat) :
    forthMsg t val a ≠ backMsg t val b := by
  intro h
  simpa [forthMsg, backMsg] using congrArg Msg.back h

/-- The forth messages a node sends are the forth messages of its children. -/
theorem sendForth_eq (t : Tree) (i : Nat) (val : Int) :
    sendForth t i val = (Children t i).map (forthMsg t val) := by
  unfold sendForth
  apply List.map_congr_left
  intro c hc
  rw [mem_Children] at hc
  simp [forthMsg, hc.2.2]

theorem count_forth_sendForth (t : Tree) (i : Nat) (val : Int) (x : Nat) :
    (sendForth t i val).count (forthMsg t val x) = if x ∈ Children t i then 1 else 0 := by
  rw [sendForth_eq, List.count_map_of_injective _ _ (forthMsg_inj t val),
    List.count_eq_of_nodup (nodup_Children t i)]

theorem count_back_sendForth (t : Tree) (i : Nat) (val : Int) (x : Nat) :
    (sendForth t i val).count (backMsg t val x) = 0 := by
  rw [List.count_eq_zero, sendForth_eq]
  intro h
  obtain ⟨c, _, hc⟩ := List.mem_map.1 h
  exact forthMsg_ne_backMsg t val c x hc

/-- Taking the message at position `k` out of a list lowers its count by one. -/
theorem count_eraseIdx {α : Type} [DecidableEq α] (a : α) :
    ∀ (l : List α) (k : Nat) (m : α), l.get? k = some m →
      l.count a = (l.eraseIdx k).count a + if m = a then 1 else 0 := by
  intro l
  induction l with
  | nil => intro k m h; simp at h
  | cons b l ih =>
    intro k m h
    cases k with
    | zero =>
      simp only [List.get?_cons_zero, Option.some.injEq] at h
      subst h
      simp [List.eraseIdx, List.count_cons]
    | succ k =>
      simp only [List.get?_cons_succ] at h
      simp only [List.eraseIdx, List.count_cons, ih k m h]
      omega

theorem perm_eraseIdx {α : Type} : ∀ (l : List α) (k : Nat) (m : α), l.get? k = some m →
    l.Perm (m :: l.eraseIdx k) := by
  intro l
  induction l with
  | nil => intro k m h; simp at h
  | cons b l ih =>
    intro k m h
    cases k with
    | zero =>
      simp only [List.get?_cons_zero, Option.some.injEq] at h
      subst h
      exact List.Perm.refl _
    | succ k =>
      simp only [List.get?_cons_succ] at h
      exact ((ih k m h).cons b).trans (List.Perm.swap m b _)

theorem mem_of_mem_eraseIdx {α : Type} : ∀ (l : List α) (k : Nat) (a : α),
    a ∈ l.eraseIdx k → a ∈ l := by
  intro l k a h
  exact (List.eraseIdx_sublist l k).subset h

/-- A sum over the nodes in which one node goes down by one. -/
theorem sum_step (n j : Nat) (f g : Nat → Nat) (hj : j < n)
    (hne : ∀ i, i < n → i ≠ j → g i = f i) (h : f j = g j + 1) :
    ∑ i in Finset.range n, f i = (∑ i in Finset.range n, g i) + 1 := by
  have hm : j ∈ Finset.range n := Finset.mem_range.2 hj
  rw [← Finset.add_sum_erase _ f hm, ← Finset.add_sum_erase _ g hm, h]
  have : ∑ i in (Finset.range n).erase j, g i = ∑ i in (Finset.range n).erase j, f i := by
    apply Finset.sum_congr rfl
    intro i hi
    rw [Finset.mem_erase, Finset.mem_range] at hi
    exact hne i hi.2 hi.1
  omega

theorem startPhase_le (t : Tree) (x : Nat) : startPhase t x ≤ 2 := by
  unfold startPhase
  split
  · omega
  · split <;> omega

theorem togo_startPhase (t : Tree) (x : Nat) :
    togo (startPhase t x) = if x = 0 then 1 else 2 := by
  unfold startPhase
  by_cases h0 : x = 0
  · simp [h0, togo]
  · by_cases h1 : t.parent x = 0 <;> simp [h0, h1, togo]

theorem sum_togo_start (t : Tree) :
    ∀ n, 0 < n → ∑ j in Finset.range n, togo (startPhase t j) = 2 * n - 1 := by
  intro n
  induction n with
  | zero => intro h; omega
  | succ k ih =>
    intro _
    rw [Finset.sum_range_succ, togo_startPhase]
    rcases Nat.eq_zero_or_pos k with h0 | h0
    · subst h0; simp
    · rw [ih h0, if_neg (by omega)]; omega

/-- The invariant holds right after `Start`. -/
theorem inv_start (t : Tree) (hwf : t.WellFormed) (val : Int) :
    Inv t val (startPhase t) (Start t val) where
  netEdge := by
    intro m hm
    simp only [Start, sendForth_eq, List.mem_map] at hm
    obtain ⟨c, hc, rfl⟩ := hm
    rw [mem_Children] at hc
    exact ⟨c, hc.2.1, hc.1, Or.inl rfl⟩
  rcvEdge := by intro m hm; simp [Start] at hm
  netF := by
    intro j h0 hj
    simp only [Start, count_forth_sendForth, mem_Children, startPhase]
    have : j ≠ 0 := by omega
    by_cases hp : t.parent j = 0 <;> simp [this, hp, hj, h0]
  netB := by
    intro j h0 hj
    have := startPhase_le t j
    simp only [Start, count_back_sendForth]
    rw [if_neg (by omega)]
  rcvF := by
    intro j h0 hj
    have : ¬ 2 ≤ startPhase t j := by
      unfold startPhase
      rw [if_neg (by omega)]
      split <;> omega
    simp [Start, this]
  rcvB := by
    intro j h0 hj
    have := startPhase_le t j
    simp only [Start, List.count_nil]
    rw [if_neg (by omega)]
  sentPerm := by simp [Start]
  phLe := by intro x _; have := startPhase_le t x; omega
  phRoot := Or.inl (by simp [startPhase])
  rootDone := by simp [startPhase]
  p1 := by
    intro x h0 hx h
    unfold startPhase at h ⊢
    by_cases hp : t.parent x = 0
    · simp [hp] at h
    · rw [if_neg (by omega), if_neg hp]
  p2 := by
    intro x h0 hx h
    unfold startPhase at h ⊢
    by_cases hp : t.parent x = 0
    · rw [if_neg (by omega), if_pos hp]
    · rw [if_neg hp] at h
      split at h <;> omega
  p3 := by
    intro x h0 hx h
    have := startPhase_le t (t.parent x)
    omega
  p4 := by
    intro x hx h
    have hx0 : x = 0 := by
      by_contra hne
      unfold startPhase at h
      rw [if_neg hne] at h
      split at h <;> omega
    subst hx0
    cases hc : Children t 0 with
    | nil => exact Or.inl ⟨rfl, rfl⟩
    | cons c cs =>
      right
      refine ⟨c, List.mem_cons_self _ _, ?_⟩
      have := startPhase_le t c
      omega
  counter := by
    intro i hi
    have : (Children t i).countP (fun c => decide (startPhase t c = 4)) = 0 := by
      rw [List.countP_eq_zero]
      intro c _
      have := startPhase_le t c
      simp only [decide_eq_true_eq]
      omega
    rw [this]
    rfl
  running := by
    intro i hi
    have := startPhase_le t i
    simp only [Start, true_iff]
    omega
  handled := by simp [Start, startPhase]
  measure := by
    simp only [Start, List.length_nil, Nat.zero_add]
    exact sum_togo_start t t.size hwf.1

/-- A message in transit is counted. -/
theorem count_pos_of_get {α : Type} [DecidableEq α] (l : List α) (k : Nat) (m : α)
    (h : l.get? k = some m) : 0 < l.count m :=
  List.count_pos_iff.2 (List.get?_mem h)

/-- The node of a forth message in transit is in phase 1. -/
theorem phase_of_forth (t : Tree) (val : Int) (ph : Nat → Nat) (s : Run)
    (hinv : Inv t val ph s) (j : Nat) (h0 : 0 < j) (hj : j < t.size)
    (hm : forthMsg t val j ∈ s.net) : ph j = 1 := by
  have h1 := hinv.netF j h0 hj
  have h2 : 0 < s.net.count (forthMsg t val j) := List.count_pos_iff.2 hm
  by_contra hne
  rw [if_neg hne] at h1
  omega

/-- The node of a back message in transit is in phase 3. -/
theorem phase_of_back (t : Tree) (val : Int) (ph : Nat → Nat) (s : Run)
    (hinv : Inv t val ph s) (j : Nat) (h0 : 0 < j) (hj : j < t.size)
    (hm : backMsg t val j ∈ s.net) : ph j = 3 := by
  have h1 := hinv.netB j h0 hj
  have h2 : 0 < s.net.count (backMsg t val j) := List.count_pos_iff.2 hm
  by_contra hne
  rw [if_neg hne] at h1
  omega

/-- The invariant after a node in phase 1 has taken its forth message, sent it
on to its children and, when `a = 3`, sent its back message `up`. -/
theorem inv_forth (t : Tree) (hwf : t.WellFormed) (val : Int) (ph : Nat → Nat) (s : Run)
    (hinv : Inv t val ph s) (k j : Nat) (h0 : 0 < j) (hj : j < t.size)
    (hk : s.net.get? k = some (forthMsg t val j))
    (a : Nat) (up : List Msg) (nodes : Nat → Node)
    (ha : (a = 2 ∧ up = [] ∧ Children t j ≠ []) ∨
          (a = 3 ∧ up = [backMsg t val j] ∧ Children t j = []))
    (hcnt : ∀ i, (nodes i).counter = (s.nodes i).counter)
    (hrun : ∀ i, ((nodes i).running = true ↔
      (¬ (i = j ∧ a = 3) ∧ (s.nodes i).running = true))) :
    Inv t val (phaseForth t ph j a)
      { nodes := nodes,
        net := s.net.eraseIdx k ++ sendForth t j val ++ up,
        handled := s.handled,
        sent := s.sent ++ sendForth t j val ++ up,
        received := s.received ++ [forthMsg t val j] } := by
  have hmem : forthMsg t val j ∈ s.net := List.get?_mem hk
  have hphj : ph j = 1 := phase_of_forth t val ph s hinv j h0 hj hmem
  have hpar : t.parent j < j := hwf.2 j hj h0
  have hchild : ∀ x, 0 < x → x < t.size → t.parent x = j → ph x = 0 := by
    intro x hx0 hx hp
    exact hinv.p1 x hx0 hx (by rw [hp]; omega)
  have ha23 : a = 2 ∨ a = 3 := by
    rcases ha with h | h
    · exact Or.inl h.1
    · exact Or.inr h.1
  have hupF : ∀ x, up.count (forthMsg t val x) = 0 := by
    intro x
    rcases ha with h | h
    · simp [h.2.1]
    · rw [h.2.1, List.count_singleton]
      rw [if_neg]
      intro he
      have he2 : backMsg t val j = forthMsg t val x := by simpa using he
      exact forthMsg_ne_backMsg t val x j he2.symm
  have hupB : ∀ x, up.count (backMsg t val x) = if x = j ∧ a = 3 then 1 else 0 := by
    intro x
    rcases ha with h | h
    · simp [h.1, h.2.1]
    · rw [h.2.1, List.count_singleton]
      by_cases hx : x = j
      · simp [hx, h.1]
      · have : ¬ (backMsg t val j == backMsg t val x) = true := by
          simp only [beq_iff_eq]
          intro he
          exact hx (backMsg_inj t val he).symm
        simp [hx, this]
  have hphpar : phaseForth t ph j a (t.parent j) = ph (t.parent j) := by
    unfold phaseForth
    rw [if_neg (by omega)]
    by_cases hpp : 0 < t.parent j ∧ t.parent (t.parent j) = j
    · have := hwf.2 (t.parent j) (by omega) hpp.1
      omega
    · rw [if_neg hpp]
  refine
    { netEdge := ?_, rcvEdge := ?_, netF := ?_, netB := ?_, rcvF := ?_, rcvB := ?_,
      sentPerm := ?_, phLe := ?_, phRoot := ?_, rootDone := ?_, p1 := ?_, p2 := ?_,
      p3 := ?_, p4 := ?_, counter := ?_, running := ?_, handled := ?_, measure := ?_ }
  · intro m hm
    simp only [List.mem_append] at hm
    rcases hm with (hm | hm) | hm
    · exact hinv.netEdge m (mem_of_mem_eraseIdx _ _ _ hm)
    · rw [sendForth_eq, List.mem_map] at hm
      obtain ⟨c, hc, rfl⟩ := hm
      rw [mem_Children] at hc
      exact ⟨c, hc.2.1, hc.1, Or.inl rfl⟩
    · rcases ha with h | h
      · simp [h.2.1] at hm
      · rw [h.2.1, List.mem_singleton] at hm
        exact ⟨j, h0, hj, Or.inr hm⟩
  · intro m hm
    simp only [List.mem_append, List.mem_singleton] at hm
    rcases hm with hm | hm
    · exact hinv.rcvEdge m hm
    · exact ⟨j, h0, hj, Or.inl hm⟩
  · intro x hx0 hx
    have h1 := hinv.netF x hx0 hx
    have h2 := count_eraseIdx (forthMsg t val x) s.net k _ hk
    simp only [List.count_append, count_forth_sendForth, hupF, mem_Children]
    unfold phaseForth
    by_cases hxj : x = j
    · subst hxj
      have : ¬ (x < t.size ∧ 0 < x ∧ t.parent x = x) := by omega
      simp only [if_true, hphj] at h1 h2 ⊢
      rw [if_neg this]
      rcases ha23 with h | h <;> simp [h] <;> omega
    · have hne : ¬ forthMsg t val j = forthMsg t val x := fun he =>
        hxj (forthMsg_inj t val he).symm
      rw [if_neg hne] at h2
      rw [if_neg hxj]
      by_cases hp : t.parent x = j
      · have := hchild x hx0 hx hp
        simp [hp, hx0, hx] at h1 h2 ⊢
        rw [this] at h1
        simp at h1
        omega
      · simp only [hp, and_false, if_false]
        omega
  · intro x hx0 hx
    have h1 := hinv.netB x hx0 hx
    have h2 := count_eraseIdx (backMsg t val x) s.net k _ hk
    rw [if_neg (forthMsg_ne_backMsg t val j x)] at h2
    simp only [List.count_append, count_back_sendForth, hupB]
    unfold phaseForth
    by_cases hxj : x = j
    · subst hxj
      simp only [if_true, true_and]
      rw [hphj] at h1
      simp at h1
      rcases ha23 with h | h <;> simp [h] <;> omega
    · rw [if_neg hxj]
      simp only [hxj, false_and, if_false]
      by_cases hp : t.parent x = j
      · have := hchild x hx0 hx hp
        rw [this] at h1
        simp [hp, hx0] at h1 ⊢
        omega
      · simp only [hp, and_false, if_false]
        omega
  · intro x hx0 hx
    have h1 := hinv.rcvF x hx0 hx
    simp only [List.count_append, List.count_singleton]
    unfold phaseForth
    by_cases hxj : x = j
    · subst hxj
      rw [hphj] at h1
      simp at h1
      rcases ha23 with h | h <;> simp [h, h1]
    · have hne : ¬ (forthMsg t val j == forthMsg t val x) = true := by
        simp only [beq_iff_eq]
        exact fun he => hxj (forthMsg_inj t val he).symm
      rw [if_neg hne, if_neg hxj]
      by_cases hp : t.parent x = j
      · have := hchild x hx0 hx hp
        rw [this] at h1
        simp [hp, hx0] at h1 ⊢
        omega
      · simp only [hp, and_false, if_false]
        omega
  · intro x hx0 hx
    have h1 := hinv.rcvB x hx0 hx
    have hne : ¬ (forthMsg t val j == backMsg t val x) = true := by
      simp only [beq_iff_eq]
      exact forthMsg_ne_backMsg t val j x
    simp only [List.count_append, List.count_singleton, if_neg hne]
    unfold phaseForth
    by_cases hxj : x = j
    · subst hxj
      rw [hphj] at h1
      simp at h1
      rcases ha23 with h | h <;> simp [h, h1]
    · rw [if_neg hxj]
      by_cases hp : t.parent x = j
      · have := hchild x hx0 hx hp
        rw [this] at h1
        simp [hp, hx0] at h1 ⊢
        omega
      · simp only [hp, and_false, if_false]
        omega
  · have hp1 := hinv.sentPerm
    have hp2 := perm_eraseIdx s.net k _ hk
    have hp3 : (s.sent ++ sendForth t j val ++ up).Perm
        ((s.received ++ s.net) ++ (sendForth t j val ++ up)) := by
      rw [List.append_assoc]
      exact hp1.append_right _
    refine hp3.trans ?_
    have hp4 : (s.received ++ s.net).Perm
        ((s.received ++ [forthMsg t val j]) ++ s.net.eraseIdx k) := by
      rw [List.append_assoc]
      exact List.Perm.append_left _ (by simpa using hp2)
    refine (hp4.append_right _).trans ?_
    simp only [List.append_assoc]
    exact List.Perm.refl _
  · intro x hx
    have := hinv.phLe x hx
    unfold phaseForth
    split
    · omega
    · split <;> omega
  · have := hinv.phRoot
    unfold phaseForth
    rw [if_neg (by omega), if_neg (by omega)]
    exact this
  · intro h
    unfold phaseForth at h
    rw [if_neg (by omega), if_neg (by omega)] at h
    exact hinv.rootDone h
  · intro x hx0 hx h
    have hpx : t.parent x < x := hwf.2 x hx hx0
    by_cases hxj : x = j
    · subst hxj
      rw [hphpar] at h
      have := hinv.p1 x hx0 hx h
      omega
    · unfold phaseForth at h ⊢
      rw [if_neg hxj]
      by_cases hp : t.parent x = j
      · rw [hp, if_pos rfl] at h
        omega
      · rw [if_neg hp] at h
        rw [if_neg (by tauto)]
        by_cases hpp : 0 < t.parent x ∧ t.parent (t.parent x) = j
        · exact hinv.p1 x hx0 hx
            (by rw [hchild (t.parent x) hpp.1 (by omega) hpp.2]; omega)
        · rw [if_neg hpp] at h
          exact hinv.p1 x hx0 hx h
  · intro x hx0 hx h
    have hpx : t.parent x < x := hwf.2 x hx hx0
    by_cases hxj : x = j
    · subst hxj
      unfold phaseForth
      rw [if_pos rfl]
      omega
    · unfold phaseForth at h ⊢
      rw [if_neg hxj]
      by_cases hp : t.parent x = j
      · rw [if_pos ⟨hx0, hp⟩]
      · rw [if_neg hp] at h
        rw [if_neg (by tauto)]
        by_cases hpp : 0 < t.parent x ∧ t.parent (t.parent x) = j
        · rw [if_pos hpp] at h
          omega
        · rw [if_neg hpp] at h
          exact hinv.p2 x hx0 hx h
  · intro x hx0 hx h
    have hpx : t.parent x < x := hwf.2 x hx hx0
    by_cases hxj : x = j
    · subst hxj
      rw [hphpar] at h
      have := hinv.p3 x hx0 hx h
      omega
    · unfold phaseForth at h ⊢
      rw [if_neg hxj]
      by_cases hp : t.parent x = j
      · rw [hp, if_pos rfl] at h
        exfalso
        rcases ha with h2 | h3
        · omega
        · have hmemx : x ∈ Children t j := (mem_Children t j x).2 ⟨hx, hx0, hp⟩
          rw [h3.2.2] at hmemx
          simp at hmemx
      · rw [if_neg hp] at h
        rw [if_neg (by tauto)]
        by_cases hpp : 0 < t.parent x ∧ t.parent (t.parent x) = j
        · rw [if_pos hpp] at h
          omega
        · rw [if_neg hpp] at h
          exact hinv.p3 x hx0 hx h
  · intro x hx h
    by_cases hxj : x = j
    · subst hxj
      right
      unfold phaseForth at h
      rw [if_pos rfl] at h
      rcases ha with h2 | h3
      · cases hc : Children t x with
        | nil => exact absurd hc h2.2.2
        | cons c cs =>
          have hcm : c ∈ Children t x := by rw [hc]; exact List.mem_cons_self _ _
          refine ⟨c, List.mem_cons_self _ _, ?_⟩
          rw [mem_Children] at hcm
          have hpc := hwf.2 c hcm.1 hcm.2.1
          unfold phaseForth
          rw [if_neg (by omega), if_pos ⟨hcm.2.1, hcm.2.2⟩]
          omega
      · omega
    · unfold phaseForth at h
      rw [if_neg hxj] at h
      by_cases hp : 0 < x ∧ t.parent x = j
      · rw [if_pos hp] at h
        omega
      · rw [if_neg hp] at h
        rcases hinv.p4 x hx h with hl | ⟨c, hc, hne⟩
        · exact Or.inl hl
        · right
          refine ⟨c, hc, ?_⟩
          rw [mem_Children] at hc
          unfold phaseForth
          by_cases hcj : c = j
          · rw [if_pos hcj]
            omega
          · rw [if_neg hcj, if_neg (by rw [hc.2.2]; tauto)]
            exact hne
  · intro i hi
    rw [hcnt i, hinv.counter i hi]
    apply List.countP_congr
    intro c hc
    rw [mem_Children] at hc
    simp only [decide_eq_true_eq]
    unfold phaseForth
    by_cases hcj : c = j
    · rw [if_pos hcj, hcj, hphj]
      omega
    · rw [if_neg hcj]
      by_cases hp : 0 < c ∧ t.parent c = j
      · rw [if_pos hp, hchild c hp.1 hc.1 hp.2]
        omega
      · rw [if_neg hp]
  · intro i hi
    rw [hrun i, hinv.running i hi]
    unfold phaseForth
    by_cases hij : i = j
    · subst hij
      rw [if_pos rfl, hphj]
      omega
    · rw [if_neg hij]
      by_cases hp : 0 < i ∧ t.parent i = j
      · rw [if_pos hp, hchild i hp.1 hi hp.2]
        omega
      · rw [if_neg hp]
        tauto
  · show s.handled = _
    have hroot : phaseForth t ph j a 0 = ph 0 := by
      unfold phaseForth
      rw [if_neg (by omega), if_neg (by omega)]
    rw [hinv.handled, hroot]
  · have hm := hinv.measure
    have hs := sum_step t.size j (fun i => togo (ph i)) (fun i => togo (phaseForth t ph j a i)) hj
      (by
        intro i hi hij
        show togo (phaseForth t ph j a i) = togo (ph i)
        unfold phaseForth
        rw [if_neg hij]
        by_cases hp : 0 < i ∧ t.parent i = j
        · rw [if_pos hp, hchild i hp.1 hi hp.2]
          rfl
        · rw [if_neg hp])
      (by
        show togo (ph j) = togo (phaseForth t ph j a j) + 1
        unfold phaseForth
        rw [if_pos rfl, hphj]
        rcases ha23 with h | h <;> rw [h] <;> rfl)
    simp only [List.length_append, List.length_singleton]
    beta_reduce at hs
    have hn := hwf.1
    omega

/-- Counting after one more element of a list without repetition satisfies
the test. -/
theorem countP_succ_of_mem (q r : Nat → Bool) (c : Nat) : ∀ (l : List Nat), l.Nodup → c ∈ l →
    q c = false → r c = true → (∀ x ∈ l, x ≠ c → r x = q x) →
    l.countP r = l.countP q + 1 := by
  intro l
  induction l with
  | nil => intro _ h; simp at h
  | cons b l ih =>
    intro hnd hmem hq hr hrest
    rw [List.nodup_cons] at hnd
    by_cases hbc : b = c
    · subst hbc
      have hl : l.countP r = l.countP q := by
        apply List.countP_congr
        intro x hx
        have hxb : x ≠ b := fun h => hnd.1 (h ▸ hx)
        rw [hrest x (List.mem_cons_of_mem _ hx) hxb]
      simp [List.countP_cons, hq, hr, hl]
    · have hcl : c ∈ l := by
        rcases List.mem_cons.1 hmem with h | h
        · exact absurd h.symm hbc
        · exact h
      have := ih hnd.2 hcl hq hr (fun x hx hxc => hrest x (List.mem_cons_of_mem _ hx) hxc)
      simp only [List.countP_cons, this, hrest b (List.mem_cons_self _ _) hbc]
      omega

/-- The invariant after the parent of a node in phase 3 has taken the back
message of that node: the parent stays in phase 2, or it has all the back
messages of its children and goes to phase 3, calling the handler (root) or
sending its own back message (other nodes). -/
theorem inv_back (t : Tree) (hwf : t.WellFormed) (val : Int) (ph : Nat → Nat) (s : Run)
    (hinv : Inv t val ph s) (k c : Nat) (h0 : 0 < c) (hc : c < t.size)
    (hk : s.net.get? k = some (backMsg t val c))
    (a : Nat) (up : List Msg) (hd : List Int) (nodes : Nat → Node)
    (ha : a = 2 ∨ a = 3)
    (hdone : a = 3 ↔ (s.nodes (t.parent c)).counter + 1 = (Children t (t.parent c)).length)
    (hup : up = if a = 3 ∧ 0 < t.parent c then [backMsg t val (t.parent c)] else [])
    (hhd : hd = if a = 3 ∧ t.parent c = 0 then [val] else [])
    (hcnt : ∀ i, (nodes i).counter =
      if i = t.parent c then (s.nodes i).counter + 1 else (s.nodes i).counter)
    (hrun : ∀ i, ((nodes i).running = true ↔
      (¬ (i = t.parent c ∧ a = 3) ∧ (s.nodes i).running = true))) :
    Inv t val (phaseBack t ph c a)
      { nodes := nodes,
        net := s.net.eraseIdx k ++ up,
        handled := s.handled ++ hd,
        sent := s.sent ++ up,
        received := s.received ++ [backMsg t val c] } := by
  have hmem : backMsg t val c ∈ s.net := List.get?_mem hk
  have hphc : ph c = 3 := phase_of_back t val ph s hinv c h0 hc hmem
  have hpar : t.parent c < c := hwf.2 c hc h0
  have hpn : t.parent c < t.size := by omega
  have hphp : ph (t.parent c) = 2 := by
    have h1 : ¬ ph (t.parent c) ≤ 1 := fun h => by
      have := hinv.p1 c h0 hc h
      omega
    have h3 : ¬ 3 ≤ ph (t.parent c) := fun h => by
      have := hinv.p3 c h0 hc h
      omega
    omega
  have hcmem : c ∈ Children t (t.parent c) := (mem_Children t _ c).2 ⟨hc, h0, rfl⟩
  have hpp : 0 < t.parent c → t.parent (t.parent c) < t.parent c := fun h =>
    hwf.2 (t.parent c) hpn h
  -- the new counter of the parent counts the children in phase 4
  have hcount : (s.nodes (t.parent c)).counter + 1 =
      (Children t (t.parent c)).countP (fun x => decide (phaseBack t ph c a x = 4)) := by
    rw [hinv.counter _ hpn]
    symm
    apply countP_succ_of_mem _ _ c _ (nodup_Children t _) hcmem
    · simp [hphc]
    · simp [phaseBack]
    · intro x hx hxc
      rw [mem_Children] at hx
      have := hwf.2 x hx.1 hx.2.1
      unfold phaseBack
      rw [if_neg hxc, if_neg (by omega)]
  have hall : a = 3 → ∀ x ∈ Children t (t.parent c), phaseBack t ph c a x = 4 := by
    intro h3 x hx
    have h := hdone.1 h3
    rw [hcount] at h
    have := (List.countP_eq_length).1 h x hx
    simpa using this
  have hupF : ∀ x, up.count (forthMsg t val x) = 0 := by
    intro x
    rw [hup]
    split
    · rw [List.count_singleton, if_neg]
      intro he
      have he2 : backMsg t val (t.parent c) = forthMsg t val x := by simpa using he
      exact forthMsg_ne_backMsg t val x _ he2.symm
    · rfl
  have hupB : ∀ x, up.count (backMsg t val x) =
      if x = t.parent c ∧ a = 3 ∧ 0 < t.parent c then 1 else 0 := by
    intro x
    rw [hup]
    by_cases hcond : a = 3 ∧ 0 < t.parent c
    · rw [if_pos hcond, List.count_singleton]
      by_cases hx : x = t.parent c
      · simp [hx, hcond.1, hcond.2]
      · have : ¬ (backMsg t val (t.parent c) == backMsg t val x) = true := by
          simp only [beq_iff_eq]
          intro he
          exact hx (backMsg_inj t val he).symm
        simp [hx, this]
    · rw [if_neg hcond, if_neg (by tauto)]
      rfl
  refine
    { netEdge := ?_, rcvEdge := ?_, netF := ?_, netB := ?_, rcvF := ?_, rcvB := ?_,
      sentPerm := ?_, phLe := ?_, phRoot := ?_, rootDone := ?_, p1 := ?_, p2 := ?_,
      p3 := ?_, p4 := ?_, counter := ?_, running := ?_, handled := ?_, measure := ?_ }
  · intro m hm
    simp only [List.mem_append] at hm
    rcases hm with hm | hm
    · exact hinv.netEdge m (mem_of_mem_eraseIdx _ _ _ hm)
    · rw [hup] at hm
      split at hm
      · rename_i hcond
        rw [List.mem_singleton] at hm
        exact ⟨t.parent c, hcond.2, hpn, Or.inr hm⟩
      · simp at hm
  · intro m hm
    simp only [List.mem_append, List.mem_singleton] at hm
    rcases hm with hm | hm
    · exact hinv.rcvEdge m hm
    · exact ⟨c, h0, hc, Or.inr hm⟩
  · intro x hx0 hx
    have h1 := hinv.netF x hx0 hx
    have h2 := count_eraseIdx (forthMsg t val x) s.net k _ hk
    rw [if_neg (fun he => forthMsg_ne_backMsg t val x c he.symm)] at h2
    simp only [List.count_append, hupF]
    unfold phaseBack
    by_cases hxc : x = c
    · rw [if_pos hxc]
      rw [hxc, hphc] at h1
      rw [hxc] at h2 ⊢
      split_ifs at h1 ⊢ <;> omega
    · rw [if_neg hxc]
      by_cases hxp : x = t.parent c
      · rw [if_pos hxp]
        rw [hxp, hphp] at h1
        rw [hxp] at h2 ⊢
        split_ifs at h1 ⊢ <;> omega
      · rw [if_neg hxp]
        omega
  · intro x hx0 hx
    have h1 := hinv.netB x hx0 hx
    have h2 := count_eraseIdx (backMsg t val x) s.net k _ hk
    simp only [List.count_append, hupB]
    unfold phaseBack
    by_cases hxc : x = c
    · rw [if_pos hxc]
      rw [hxc, hphc] at h1
      rw [hxc] at h2 ⊢
      rw [if_pos rfl] at h2
      split_ifs at h1 ⊢ <;> omega
    · have hne : ¬ backMsg t val c = backMsg t val x := fun he =>
        hxc (backMsg_inj t val he).symm
      rw [if_neg hne] at h2
      rw [if_neg hxc]
      by_cases hxp : x = t.parent c
      · rw [if_pos hxp]
        rw [hxp, hphp] at h1
        rw [hxp] at h2 ⊢
        rw [hxp] at hx0
        split_ifs at h1 ⊢ <;> omega
      · rw [if_neg hxp, if_neg (by tauto)]
        omega
  · intro x hx0 hx
    have h1 := hinv.rcvF x hx0 hx
    have hne : ¬ (backMsg t val c == forthMsg t val x) = true := by
      simp only [beq_iff_eq]
      exact fun he => forthMsg_ne_backMsg t val x c he.symm
    simp only [List.count_append, List.count_singleton, if_neg hne]
    unfold phaseBack
    by_cases hxc : x = c
    · rw [if_pos hxc]
      rw [hxc, hphc] at h1
      rw [hxc]
      split_ifs at h1 ⊢ <;> omega
    · rw [if_neg hxc]
      by_cases hxp : x = t.parent c
      · rw [if_pos hxp]
        rw [hxp, hphp] at h1
        rw [hxp]
        split_ifs at h1 ⊢ <;> omega
      · rw [if_neg hxp]
        omega
  · intro x hx0 hx
    have h1 := hinv.rcvB x hx0 hx
    simp only [List.count_append, List.count_singleton]
    unfold phaseBack
    by_cases hxc : x = c
    · rw [if_pos hxc]
      rw [hxc, hphc] at h1
      rw [hxc]
      simp only [beq_self_eq_true, if_true]
      split_ifs at h1 <;> omega
    · have hne : ¬ (backMsg t val c == backMsg t val x) = true := by
        simp only [beq_iff_eq]
        exact fun he => hxc (backMsg_inj t val he).symm
      rw [if_neg hne, if_neg hxc]
      by_cases hxp : x = t.parent c
      · rw [if_pos hxp]
        rw [hxp, hphp] at h1
        rw [hxp]
        split_ifs at h1 ⊢ <;> omega
      · rw [if_neg hxp]
        omega
  · have hp1 := hinv.sentPerm
    have hp2 := perm_eraseIdx s.net k _ hk
    have hp3 : (s.sent ++ up).Perm ((s.received ++ s.net) ++ up) := hp1.append_right _
    refine hp3.trans ?_
    have hp4 : (s.received ++ s.net).Perm
        ((s.received ++ [backMsg t val c]) ++ s.net.eraseIdx k) := by
      rw [List.append_assoc]
      exact List.Perm.append_left _ (by simpa using hp2)
    refine (hp4.append_right _).trans ?_
    simp only [List.append_assoc]
    exact List.Perm.refl _
  · intro x hx
    have := hinv.phLe x hx
    unfold phaseBack
    split
    · omega
    · split <;> omega
  · have := hinv.phRoot
    unfold phaseBack
    rw [if_neg (by omega)]
    split <;> omega
  · intro h
    unfold phaseBack at h
    rw [if_neg (by omega)] at h
    by_cases hp0 : 0 = t.parent c
    · intro hnil
      rw [← hp0, hnil] at hcmem
      simp at hcmem
    · rw [if_neg hp0] at h
      exact hinv.rootDone h
  · intro x hx0 hx h
    have hpx : t.parent x < x := hwf.2 x hx hx0
    unfold phaseBack at h ⊢
    by_cases hxc : x = c
    · subst hxc
      rw [if_neg (by omega), if_pos rfl] at h
      omega
    · rw [if_neg hxc]
      by_cases hxp : x = t.parent c
      · subst hxp
        have hppx := hpp hx0
        rw [if_neg (by omega), if_neg (by omega)] at h
        have := hinv.p1 _ hx0 hx h
        omega
      · rw [if_neg hxp]
        by_cases hqc : t.parent x = c
        · rw [if_pos hqc] at h
          omega
        · rw [if_neg hqc] at h
          by_cases hqp : t.parent x = t.parent c
          · rw [if_pos hqp] at h
            omega
          · rw [if_neg hqp] at h
            exact hinv.p1 x hx0 hx h
  · intro x hx0 hx h
    have hpx : t.parent x < x := hwf.2 x hx hx0
    unfold phaseBack at h ⊢
    by_cases hxc : x = c
    · rw [if_pos hxc]
      omega
    · rw [if_neg hxc]
      by_cases hxp : x = t.parent c
      · rw [if_pos hxp]
        omega
      · rw [if_neg hxp]
        apply hinv.p2 x hx0 hx
        by_cases hqc : t.parent x = c
        · rw [hqc, hphc]
          omega
        · rw [if_neg hqc] at h
          by_cases hqp : t.parent x = t.parent c
          · rw [hqp, hphp]
          · rw [if_neg hqp] at h
            exact h
  · intro x hx0 hx h
    have hpx : t.parent x < x := hwf.2 x hx hx0
    by_cases hxc : x = c
    · unfold phaseBack
      rw [if_pos hxc]
    · by_cases hqp : t.parent x = t.parent c
      · have ha3 : a = 3 := by
          unfold phaseBack at h
          rw [if_neg (by omega), if_pos hqp] at h
          omega
        exact hall ha3 x ((mem_Children t _ x).2 ⟨hx, hx0, hqp⟩)
      · unfold phaseBack at h ⊢
        rw [if_neg hxc]
        rw [if_neg hqp] at h
        by_cases hxp : x = t.parent c
        · subst hxp
          have hppx := hpp hx0
          rw [if_neg (by omega)] at h
          have := hinv.p3 _ hx0 hx h
          omega
        · rw [if_neg hxp]
          apply hinv.p3 x hx0 hx
          by_cases hqc : t.parent x = c
          · rw [hqc, hphc]
          · rw [if_neg hqc] at h
            exact h
  · intro x hx h
    by_cases hxc : x = c
    · unfold phaseBack at h
      rw [if_pos hxc] at h
      omega
    · by_cases hxp : x = t.parent c
      · right
        have hsome : a = 2 → ∃ x ∈ Children t (t.parent c), phaseBack t ph c a x ≠ 4 := by
          intro h2
          by_contra hno
          push_neg at hno
          have hlen : (Children t (t.parent c)).countP (fun x => decide (phaseBack t ph c a x = 4))
              = (Children t (t.parent c)).length := by
            rw [List.countP_eq_length]
            intro x hx
            simpa using hno x hx
          rw [← hcount] at hlen
          have := hdone.2 hlen
          omega
        have ha2 : a = 2 := by
          unfold phaseBack at h
          rw [if_neg hxc, if_pos hxp] at h
          exact h
        rw [hxp]
        exact hsome ha2
      · have hphx : ph x = 2 := by
          unfold phaseBack at h
          rw [if_neg hxc, if_neg hxp] at h
          exact h
        rcases hinv.p4 x hx hphx with hl | ⟨d, hd, hne⟩
        · exact Or.inl hl
        · right
          refine ⟨d, hd, ?_⟩
          rw [mem_Children] at hd
          unfold phaseBack
          by_cases hdc : d = c
          · rw [hdc] at hd
            exact absurd hd.2.2.symm hxp
          · rw [if_neg hdc]
            split
            · omega
            · exact hne
  · intro i hi
    rw [hcnt i]
    by_cases hip : i = t.parent c
    · rw [if_pos hip, hip]
      exact hcount
    · rw [if_neg hip, hinv.counter i hi]
      apply List.countP_congr
      intro d hd
      rw [mem_Children] at hd
      simp only [decide_eq_true_eq]
      unfold phaseBack
      by_cases hdc : d = c
      · rw [hdc] at hd
        exact absurd hd.2.2.symm hip
      · rw [if_neg hdc]
        by_cases hdp : d = t.parent c
        · rw [if_pos hdp, hdp, hphp]
          omega
        · rw [if_neg hdp]
  · intro i hi
    rw [hrun i, hinv.running i hi]
    unfold phaseBack
    by_cases hic : i = c
    · rw [if_pos hic, hic, hphc]
      omega
    · rw [if_neg hic]
      by_cases hip : i = t.parent c
      · rw [if_pos hip, hip, hphp]
        omega
      · rw [if_neg hip]
        tauto
  · show s.handled ++ hd = _
    rw [hinv.handled, hhd]
    have hroot : phaseBack t ph c a 0 = if 0 = t.parent c then a else ph 0 := by
      unfold phaseBack
      rw [if_neg (by omega)]
    rw [hroot]
    by_cases hp0 : 0 = t.parent c
    · rw [if_pos hp0]
      have h2 : ph 0 = 2 := by rw [hp0]; exact hphp
      rw [h2, if_neg (by omega)]
      rcases ha with h | h
      · simp [h]
      · simp [h, ← hp0]
    · rw [if_neg hp0, if_neg (fun h : a = 3 ∧ t.parent c = 0 => hp0 h.2.symm)]
      simp
  · have hm := hinv.measure
    have hs := sum_step t.size c (fun i => togo (ph i)) (fun i => togo (phaseBack t ph c a i)) hc
      (by
        intro i hi hic
        show togo (phaseBack t ph c a i) = togo (ph i)
        unfold phaseBack
        rw [if_neg hic]
        by_cases hip : i = t.parent c
        · rw [if_pos hip, hip, hphp]
          rcases ha with h | h
          · rw [h]
          · rw [h]
            rfl
        · rw [if_neg hip])
      (by
        show togo (ph c) = togo (phaseBack t ph c a c) + 1
        unfold phaseBack
        rw [if_pos rfl, hphc]
        rfl)
    simp only [List.length_append, List.length_singleton]
    beta_reduce at hs
    have hn := hwf.1
    omega

/-- The parent of a node whose back message is in transit is in phase 2. -/
theorem phase_parent_of_back (t : Tree) (val : Int) (ph : Nat → Nat) (s : Run)
    (hinv : Inv t val ph s) (c : Nat) (h0 : 0 < c) (hc : c < t.size)
    (hm : backMsg t val c ∈ s.net) : ph (t.parent c) = 2 := by
  have hphc := phase_of_back t val ph s hinv c h0 hc hm
  have h1 : ¬ ph (t.parent c) ≤ 1 := fun h => by
    have := hinv.p1 c h0 hc h
    omega
  have h3 : ¬ 3 ≤ ph (t.parent c) := fun h => by
    have := hinv.p3 c h0 hc h
    omega
  omega

/-- The dispatch of a forth message taken from position `k` keeps the
invariant. -/
theorem inv_dispatch_forth (t : Tree) (hwf : t.WellFormed) (val : Int) (ph : Nat → Nat)
    (s : Run) (hinv : Inv t val ph s) (k j : Nat) (h0 : 0 < j) (hj : j < t.size)
    (hk : s.net.get? k = some (forthMsg t val j)) :
    ∃ ph1, Inv t val ph1 (dispatch t (forthMsg t val j) { s with net := s.net.eraseIdx k }) := by
  have hmem : forthMsg t val j ∈ s.net := List.get?_mem hk
  have hphj : ph j = 1 := phase_of_forth t val ph s hinv j h0 hj hmem
  have hrunning : (s.nodes j).running = true := (hinv.running j hj).2 (by omega)
  have hroot : IsRoot j = false := by simp [IsRoot]; omega
  by_cases hleaf : Children t j = []
  · have hl : IsLeaf t j = true := by simp [IsLeaf, hleaf]
    have hd : dispatch t (forthMsg t val j) { s with net := s.net.eraseIdx k } =
        { nodes := Function.update s.nodes j { s.nodes j with running := false },
          net := s.net.eraseIdx k ++ sendForth t j val ++ [backMsg t val j],
          handled := s.handled,
          sent := s.sent ++ sendForth t j val ++ [backMsg t val j],
          received := s.received ++ [forthMsg t val j] } := by
      simp [dispatch, forthMsg, backMsg, hrunning, hl, sendBack, hroot]
    rw [hd]
    refine ⟨_, inv_forth t hwf val ph s hinv k j h0 hj hk 3 [backMsg t val j] _
      (Or.inr ⟨rfl, rfl, hleaf⟩) ?_ ?_⟩
    · intro i
      by_cases hij : i = j
      · subst hij; simp
      · simp [Function.update_noteq hij]
    · intro i
      by_cases hij : i = j
      · subst hij; simp
      · simp [Function.update_noteq hij, hij]
  · have hl : IsLeaf t j = false := by simp [IsLeaf, hleaf]
    have hd : dispatch t (forthMsg t val j) { s with net := s.net.eraseIdx k } =
        { nodes := s.nodes,
          net := s.net.eraseIdx k ++ sendForth t j val ++ [],
          handled := s.handled,
          sent := s.sent ++ sendForth t j val ++ [],
          received := s.received ++ [forthMsg t val j] } := by
      simp [dispatch, forthMsg, hrunning, hl]
    rw [hd]
    refine ⟨_, inv_forth t hwf val ph s hinv k j h0 hj hk 2 [] _
      (Or.inl ⟨rfl, rfl, hleaf⟩) (fun _ => rfl) ?_⟩
    intro i
    simp

/-- The dispatch of a back message taken from position `k` keeps the
invariant. -/
theorem inv_dispatch_back (t : Tree) (hwf : t.WellFormed) (val : Int) (ph : Nat → Nat)
    (s : Run) (hinv : Inv t val ph s) (k c : Nat) (h0 : 0 < c) (hc : c < t.size)
    (hk : s.net.get? k = some (backMsg t val c)) :
    ∃ ph1, Inv t val ph1 (dispatch t (backMsg t val c) { s with net := s.net.eraseIdx k }) := by
  have hmem : backMsg t val c ∈ s.net := List.get?_mem hk
  have hpar : t.parent c < c := hwf.2 c hc h0
  have hphp := phase_parent_of_back t val ph s hinv c h0 hc hmem
  have hrunning : (s.nodes (t.parent c)).running = true :=
    (hinv.running _ (by omega)).2 (by omega)
  by_cases hfull : (s.nodes (t.parent c)).counter + 1 = (Children t (t.parent c)).length
  · by_cases hp0 : t.parent c = 0
    · have hd : dispatch t (backMsg t val c) { s with net := s.net.eraseIdx k } =
          { nodes := Function.update s.nodes (t.parent c)
              { counter := (s.nodes (t.parent c)).counter + 1, running := false },
            net := s.net.eraseIdx k ++ [],
            handled := s.handled ++ [val],
            sent := s.sent ++ [],
            received := s.received ++ [backMsg t val c] } := by
        have hr0 := hrunning
        have hf0 := hfull
        rw [hp0] at hr0 hf0
        simp [dispatch, backMsg, hr0, hf0, IsRoot, hp0]
      rw [hd]
      refine ⟨_, inv_back t hwf val ph s hinv k c h0 hc hk 3 [] [val] _ (Or.inr rfl)
        (by simp [hfull]) (by simp [hp0]) (by simp [hp0]) ?_ ?_⟩
      · intro i
        by_cases hip : i = t.parent c
        · subst hip; simp
        · simp [Function.update_noteq hip, hip]
      · intro i
        by_cases hip : i = t.parent c
        · subst hip; simp
        · simp [Function.update_noteq hip, hip]
    · have hroot : IsRoot (t.parent c) = false := by simp [IsRoot, hp0]
      have hd : dispatch t (backMsg t val c) { s with net := s.net.eraseIdx k } =
          { nodes := Function.update s.nodes (t.parent c)
              { counter := (s.nodes (t.parent c)).counter + 1, running := false },
            net := s.net.eraseIdx k ++ [backMsg t val (t.parent c)],
            handled := s.handled ++ [],
            sent := s.sent ++ [backMsg t val (t.parent c)],
            received := s.received ++ [backMsg t val c] } := by
        simp [dispatch, backMsg, hrunning, hfull, hroot, sendBack]
      rw [hd]
      refine ⟨_, inv_back t hwf val ph s hinv k c h0 hc hk 3 [backMsg t val (t.parent c)] [] _
        (Or.inr rfl) (by simp [hfull]) (by rw [if_pos ⟨rfl, Nat.pos_of_ne_zero hp0⟩])
        (by simp [hp0]) ?_ ?_⟩
      · intro i
        by_cases hip : i = t.parent c
        · subst hip; simp
        · simp [Function.update_noteq hip, hip]
      · intro i
        by_cases hip : i = t.parent c
        · subst hip; simp
        · simp [Function.update_noteq hip, hip]
  · have hd : dispatch t (backMsg t val c) { s with net := s.net.eraseIdx k } =
        { nodes := Function.update s.nodes (t.parent c)
            { s.nodes (t.parent c) with counter := (s.nodes (t.parent c)).counter + 1 },
          net := s.net.eraseIdx k ++ [],
          handled := s.handled ++ [],
          sent := s.sent ++ [],
          received := s.received ++ [backMsg t val c] } := by
      simp [dispatch, backMsg, hrunning, hfull]
    rw [hd]
    refine ⟨_, inv_back t hwf val ph s hinv k c h0 hc hk 2 [] [] _ (Or.inl rfl)
      (by simp [hfull]) (by simp) (by simp) ?_ ?_⟩
    · intro i
      by_cases hip : i = t.parent c
      · subst hip; simp
      · simp [Function.update_noteq hip, hip]
    · intro i
      by_cases hip : i = t.parent c
      · subst hip; simp
      · simp [Function.update_noteq hip, hip]

/-- Every dispatch logs its message as received. -/
theorem dispatch_received (t : Tree) (m : Msg) (s : Run) :
    (dispatch t m s).received = s.received ++ [m] := by
  unfold dispatch
  dsimp only
  split_ifs <;> rfl

/-- A delivery keeps the invariant and logs one more received message. -/
theorem inv_deliver (t : Tree) (hwf : t.WellFormed) (val : Int) (ph : Nat → Nat) (s s1 : Run)
    (hinv : Inv t val ph s) (k : Nat) (h : deliver t k s = some s1) :
    (∃ ph1, Inv t val ph1 s1) ∧ s1.received.length = s.received.length + 1 := by
  unfold deliver at h
  cases hk : s.net.get? k with
  | none => rw [hk] at h; cases h
  | some m =>
    rw [hk] at h
    simp only [Option.some.injEq] at h
    subst h
    refine ⟨?_, by rw [dispatch_received]; simp⟩
    obtain ⟨j, h0, hj, hm | hm⟩ := hinv.netEdge m (List.get?_mem hk)
    · subst hm
      exact inv_dispatch_forth t hwf val ph s hinv k j h0 hj hk
    · subst hm
      exact inv_dispatch_back t hwf val ph s hinv k j h0 hj hk

/-- With no message in transit nothing can be delivered. -/
theorem exec_of_net_nil (t : Tree) (sched : List Nat) (s : Run) (h : s.net = []) :
    exec t sched s = s := by
  induction sched with
  | nil => rfl
  | cons k ks ih =>
    have : deliver t k s = none := by simp [deliver, h]
    simp only [exec, this]
    exact ih

/-- Every schedule keeps the invariant. -/
theorem inv_exec (t : Tree) (hwf : t.WellFormed) (val : Int) (sched : List Nat) :
    ∀ (s : Run) (ph : Nat → Nat), Inv t val ph s → ∃ ph1, Inv t val ph1 (exec t sched s) := by
  induction sched with
  | nil => intro s ph h; exact ⟨ph, h⟩
  | cons k ks ih =>
    intro s ph h
    cases hd : deliver t k s with
    | none =>
      simp only [exec, hd]
      exact ih s ph h
    | some s1 =>
      simp only [exec, hd]
      obtain ⟨ph1, h1⟩ := (inv_deliver t hwf val ph s s1 h k hd).1
      exact ih s1 ph1 h1

/-- Every reachable state satisfies the invariant, for some phases. -/
theorem inv_reachable (t : Tree) (hwf : t.WellFormed) (val : Int) (s : Run)
    (h : Reachable t val s) : ∃ ph, Inv t val ph s := by
  obtain ⟨sched, rfl⟩ := h
  exact inv_exec t hwf val sched _ _ (inv_start t hwf val)

theorem exec_append (t : Tree) (a b : List Nat) (s : Run) :
    exec t (a ++ b) s = exec t b (exec t a s) := by
  induction a generalizing s with
  | nil => rfl
  | cons k ks ih =>
    simp only [List.cons_append, exec]
    split <;> exact ih _

/-- A state reached from a reachable state is reachable. -/
theorem reachable_exec (t : Tree) (val : Int) (s : Run) (h : Reachable t val s)
    (sched : List Nat) : Reachable t val (exec t sched s) := by
  obtain ⟨a, rfl⟩ := h
  exact ⟨a ++ sched, exec_append t a sched _⟩

/-- The handler has been called at most once, and with `val`. -/
theorem handled_of_inv (t : Tree) (val : Int) (ph : Nat → Nat) (s : Run)
    (hinv : Inv t val ph s) : s.handled = [] ∨ s.handled = [val] := by
  rw [hinv.handled]
  split
  · exact Or.inr rfl
  · exact Or.inl rfl

/-- The number of deliveries of a run over `n` nodes is at most `2 * (n - 1)`. -/
theorem received_le_of_inv (t : Tree) (val : Int) (ph : Nat → Nat) (s : Run)
    (hwf : t.WellFormed) (hinv : Inv t val ph s) : s.received.length ≤ 2 * (t.size - 1) := by
  have hm := hinv.measure
  have h0 : togo (ph 0) = 1 := by
    rcases hinv.phRoot with h | h <;> rw [h] <;> rfl
  have hle : togo (ph 0) ≤ ∑ j in Finset.range t.size, togo (ph j) :=
    Finset.single_le_sum (f := fun j => togo (ph j)) (fun _ _ => Nat.zero_le _)
      (Finset.mem_range.2 hwf.1)
  have := hwf.1
  omega

/-- With no message in transit, every node has its forth message. -/
theorem phase_ge_two_of_quiet (t : Tree) (val : Int) (ph : Nat → Nat) (s : Run)
    (hwf : t.WellFormed) (hinv : Inv t val ph s) (hnet : s.net = []) :
    ∀ x, x < t.size → 2 ≤ ph x := by
  intro x
  induction x using Nat.strong_induction_on with
  | _ x ih =>
    intro hx
    rcases Nat.eq_zero_or_pos x with h0 | h0
    · subst h0
      rcases hinv.phRoot with h | h <;> omega
    · have hp := hwf.2 x hx h0
      have h1 := hinv.p2 x h0 hx (ih _ hp (by omega))
      have h2 := hinv.netF x h0 hx
      rw [hnet, List.count_nil] at h2
      by_contra hlt
      have : ph x = 1 := by omega
      rw [if_pos this] at h2
      omega

/-- With no message in transit, every node other than the root is in phase 4. -/
theorem phase_four_of_quiet (t : Tree) (val : Int) (ph : Nat → Nat) (s : Run)
    (hwf : t.WellFormed) (hinv : Inv t val ph s) (hnet : s.net = []) :
    ∀ d x, x < t.size → t.size - x ≤ d → 0 < x → ph x = 4 := by
  intro d
  induction d with
  | zero => intro x hx hd; omega
  | succ d ih =>
    intro x hx hd h0
    have h2 := phase_ge_two_of_quiet t val ph s hwf hinv hnet x hx
    have hle := hinv.phLe x hx
    have h3 := hinv.netB x h0 hx
    rw [hnet, List.count_nil] at h3
    have hne3 : ph x ≠ 3 := by
      intro h
      rw [if_pos h] at h3
      omega
    have hne2 : ph x ≠ 2 := by
      intro h
      rcases hinv.p4 x hx h with hl | ⟨c, hc, hne⟩
      · omega
      · rw [mem_Children] at hc
        have hpc := hwf.2 c hc.1 hc.2.1
        exact hne (ih c hc.1 (by omega) hc.2.1)
    omega

/-- With two nodes or more and no message in transit, the handler has been
called once, with `val`. -/
theorem handled_of_quiet (t : Tree) (val : Int) (ph : Nat → Nat) (s : Run)
    (hwf : t.WellFormed) (hn : 2 ≤ t.size) (hinv : Inv t val ph s) (hnet : s.net = []) :
    s.handled = [val] := by
  have h1 := one_mem_Children t hwf hn
  have hph0 : ph 0 = 3 := by
    rcases hinv.phRoot with h | h
    · exfalso
      rcases hinv.p4 0 hwf.1 h with hl | ⟨c, hc, hne⟩
      · rw [hl.2] at h1
        simp at h1
      · rw [mem_Children] at hc
        exact hne (phase_four_of_quiet t val ph s hwf hinv hnet t.size c hc.1 (by omega) hc.2.1)
    · exact h
  rw [hinv.handled, if_pos hph0]

/-- Once as many messages are received as the run can deliver, none is in
transit. -/
theorem net_nil_of_received (t : Tree) (val : Int) (ph : Nat → Nat) (s : Run)
    (hwf : t.WellFormed) (hinv : Inv t val ph s)
    (hfull : 2 * (t.size - 1) ≤ s.received.length) : s.net = [] := by
  have hm := hinv.measure
  have h0 : togo (ph 0) = 1 := by
    rcases hinv.phRoot with h | h <;> rw [h] <;> rfl
  have hn := hwf.1
  cases hnet : s.net with
  | nil => rfl
  | cons m ms =>
    exfalso
    have hmem : m ∈ s.net := by rw [hnet]; exact List.mem_cons_self _ _
    obtain ⟨j, hj0, hj, hm2⟩ := hinv.netEdge m hmem
    have hphj : ph j = 1 ∨ ph j = 3 := by
      rcases hm2 with h | h
      · subst h
        exact Or.inl (phase_of_forth t val ph s hinv j hj0 hj hmem)
      · subst h
        exact Or.inr (phase_of_back t val ph s hinv j hj0 hj hmem)
    have htj : 1 ≤ togo (ph j) := by
      rcases hphj with h | h <;> rw [h] <;> simp [togo]
    have hmem0 : 0 ∈ Finset.range t.size := Finset.mem_range.2 hn
    have hsplit := Finset.add_sum_erase (Finset.range t.size) (fun i => togo (ph i)) hmem0
    have hle : togo (ph j) ≤ ∑ i in (Finset.range t.size).erase 0, togo (ph i) :=
      Finset.single_le_sum (f := fun i => togo (ph i)) (fun _ _ => Nat.zero_le _)
        (Finset.mem_erase.2 ⟨by omega, Finset.mem_range.2 hj⟩)
    beta_reduce at hsplit
    omega

/-- Delivering the first message in transit, again and again, empties the
network within the deliveries that are left. -/
theorem drain (t : Tree) (hwf : t.WellFormed) (val : Int) :
    ∀ (fuel : Nat) (s : Run) (ph : Nat → Nat), Inv t val ph s →
      2 * (t.size - 1) ≤ s.received.length + fuel →
      (exec t (List.replicate fuel 0) s).net = [] := by
  intro fuel
  induction fuel with
  | zero =>
    intro s ph hinv h
    exact net_nil_of_received t val ph s hwf hinv (by omega)
  | succ f ih =>
    intro s ph hinv h
    rw [List.replicate_succ]
    cases hd : deliver t 0 s with
    | none =>
      have hnil : s.net = [] := by
        cases hnet : s.net with
        | nil => rfl
        | cons m ms => simp [deliver, hnet] at hd
      rw [exec_of_net_nil t _ s hnil]
      exact hnil
    | some s1 =>
      simp only [exec, hd]
      obtain ⟨⟨ph1, h1⟩, hlen⟩ := inv_deliver t hwf val ph s s1 hinv 0 hd
      exact ih s1 ph1 h1 (by omega)

/-- The binary tree of a roster of one node or more is well formed. -/
theorem wellFormed_GenerateBinaryTree (n : Nat) (hn : 0 < n) :
    (GenerateBinaryTree n).WellFormed := by
  refine ⟨hn, ?_⟩
  intro j _ h0
  show (j - 1) / 2 < j
  omega

/-- A back message among messages on edges is the back message of its sender. -/
theorem back_on_edge (t : Tree) (val : Int) (m : Msg) (c : Nat)
    (he : ∃ j, 0 < j ∧ j < t.size ∧ (m = forthMsg t val j ∨ m = backMsg t val j))
    (hb : m.back = true) (hs : m.src = c) : m = backMsg t val c ∧ 0 < c ∧ c < t.size := by
  obtain ⟨j, h0, hj, h | h⟩ := he
  · rw [h] at hb
    simp [forthMsg] at hb
  · have : j = c := by rw [h] at hs; exact hs
    subst this
    exact ⟨h, h0, hj⟩

/-- Once the handler is called, every node other than the root is in phase 4. -/
theorem phase_four_of_done (t : Tree) (val : Int) (ph : Nat → Nat) (s : Run)
    (hwf : t.WellFormed) (hinv : Inv t val ph s) (h3 : ph 0 = 3) :
    ∀ x, x < t.size → 0 < x → ph x = 4 := by
  intro x
  induction x using Nat.strong_induction_on with
  | _ x ih =>
    intro hx h0
    have hp := hwf.2 x hx h0
    apply hinv.p3 x h0 hx
    rcases Nat.eq_zero_or_pos (t.parent x) with hz | hz
    · rw [hz, h3]
    · rw [ih _ hp (by omega) hz]
      omega

/-- The back message of a node in phase 4 has been received. -/
theorem backMsg_received (t : Tree) (val : Int) (ph : Nat → Nat) (s : Run)
    (hinv : Inv t val ph s) (c : Nat) (h0 : 0 < c) (hc : c < t.size) (h4 : ph c = 4) :
    backMsg t val c ∈ s.received := by
  have := hinv.rcvB c h0 hc
  rw [if_pos h4] at this
  exact List.count_pos_iff.1 (by omega)

/-- Among messages on edges, the back messages of `j` to its parent are the
copies of `backMsg t val j`. -/
theorem countP_back_eq (t : Tree) (val : Int) (j : Nat) (l : List Msg)
    (he : ∀ m ∈ l, ∃ i, 0 < i ∧ i < t.size ∧ (m = forthMsg t val i ∨ m = backMsg t val i)) :
    l.countP (fun m => m.back && decide (m.src = j) && decide (m.dst = t.parent j))
      = l.count (backMsg t val j) := by
  rw [List.count, List.countP_congr]
  intro m hm
  obtain ⟨i, _, _, h | h⟩ := he m hm
  · subst h
    constructor
    · intro h
      simp [forthMsg] at h
    · intro h
      exact absurd (eq_of_beq h) (forthMsg_ne_backMsg t val i j)
  · subst h
    constructor
    · intro h
      simp only [backMsg, Bool.and_eq_true, decide_eq_true_eq] at h
      rw [h.1.2]
      exact beq_self_eq_true _
    · intro h
      have := backMsg_inj t val (eq_of_beq h)
      subst this
      simp [backMsg]

/-- C9: over every rooted tree of two nodes or more, so over the binary tree
generated from a roster of at least two nodes, a run started at the root with
`val` calls the root handler at most once and only with `val` in every
reachable state; once every sent message is delivered the handler has been
called exactly once, with `val`; and that point is reached: a run has at most
`2 * (size - 1)` deliveries, and delivering the pending messages from any
reachable state leaves none in transit and the handler called once with `val`. -/
theorem backForth_handler_once (t : Tree) (hwf : t.WellFormed) (hn : 2 ≤ t.size) (val : Int)
    (s : Run) (hr : Reachable t val s) :
    (s.handled = [] ∨ s.handled = [val]) ∧
    (s.net = [] → s.handled = [val]) ∧
    s.received.length ≤ 2 * (t.size - 1) ∧
    (exec t (List.replicate (2 * (t.size - 1) - s.received.length) 0) s).net = [] ∧
    (exec t (List.replicate (2 * (t.size - 1) - s.received.length) 0) s).handled = [val] := by
  obtain ⟨ph, hinv⟩ := inv_reachable t hwf val s hr
  have hquiet : ∀ (s1 : Run), Reachable t val s1 → s1.net = [] → s1.handled = [val] := by
    intro s1 hr1 hnet
    obtain ⟨ph1, hinv1⟩ := inv_reachable t hwf val s1 hr1
    exact handled_of_quiet t val ph1 s1 hwf hn hinv1 hnet
  have hlen := received_le_of_inv t val ph s hwf hinv
  have hdrain := drain t hwf val (2 * (t.size - 1) - s.received.length) s ph hinv (by omega)
  exact ⟨handled_of_inv t val ph s hinv, hquiet s hr, hlen, hdrain,
    hquiet _ (reachable_exec t val s hr _) hdrain⟩

/-- Witness of `backForth_handler_once`: the binary tree of a roster of four
nodes, as in the test, the value 10, and the state after all six deliveries in
the order 1, 1, 0, 0, 0, 0. -/
theorem backForth_handler_once_witness :
    (GenerateBinaryTree 4).WellFormed ∧ 2 ≤ (GenerateBinaryTree 4).size ∧
    (exec (GenerateBinaryTree 4) [1, 1, 0, 0, 0, 0] (Start (GenerateBinaryTree 4) 10)).net = [] ∧
    (exec (GenerateBinaryTree 4) [1, 1, 0, 0, 0, 0] (Start (GenerateBinaryTree 4) 10)).handled
      = [10] :=
  ⟨wellFormed_GenerateBinaryTree 4 (by decide), by decide, by decide,
   (backForth_handler_once (GenerateBinaryTree 4) (wellFormed_GenerateBinaryTree 4 (by decide))
      (by decide) 10 _ ⟨[1, 1, 0, 0, 0, 0], rfl⟩).2.1 (by decide)⟩

/-- C10, as stated, fails in the two-node tree after the leaf has taken its
forth message: the leaf has sent its back message and there is no other node
below the root, but the back message is still in transit and the handler has
not been called. -/
theorem handler_not_called_yet :
    Reachable (GenerateBinaryTree 2) 10
      (exec (GenerateBinaryTree 2) [0] (Start (GenerateBinaryTree 2) 10)) ∧
    ¬ ((exec (GenerateBinaryTree 2) [0] (Start (GenerateBinaryTree 2) 10)).handled ≠ [] ↔
        allBacksDone (GenerateBinaryTree 2)
          (exec (GenerateBinaryTree 2) [0] (Start (GenerateBinaryTree 2) 10))) := by
  refine ⟨⟨[0], rfl⟩, ?_⟩
  have hh : (exec (GenerateBinaryTree 2) [0] (Start (GenerateBinaryTree 2) 10)).handled = [] := by
    decide
  have hall : allBacksDone (GenerateBinaryTree 2)
      (exec (GenerateBinaryTree 2) [0] (Start (GenerateBinaryTree 2) 10)) := by
    simp only [allBacksDone, sentBackMsg, receivedBackFrom, backsToParent]
    decide
  intro hiff
  exact (hiff.2 hall) hh

/-- C10, amended: in every reachable state of a run over a tree, the root
handler has been called if and only if every leaf has sent its back message,
every node with children other than the root has received a back message from
each of its children and sent exactly one back message to its parent, and the
root has received a back message from each of its children. -/
theorem handler_iff_all_backs (t : Tree) (hwf : t.WellFormed) (val : Int) (s : Run)
    (hr : Reachable t val s) :
    s.handled ≠ [] ↔ (allBacksDone t s ∧ rootHasAllBacks t s) := by
  obtain ⟨ph, hinv⟩ := inv_reachable t hwf val s hr
  have hsentEdge : ∀ m ∈ s.sent,
      ∃ i, 0 < i ∧ i < t.size ∧ (m = forthMsg t val i ∨ m = backMsg t val i) := by
    intro m hm
    rcases List.mem_append.1 (hinv.sentPerm.subset hm) with h | h
    · exact hinv.rcvEdge m h
    · exact hinv.netEdge m h
  constructor
  · intro hne
    have h3 : ph 0 = 3 := by
      by_contra h
      rw [hinv.handled, if_neg h] at hne
      exact hne rfl
    have h4 := phase_four_of_done t val ph s hwf hinv h3
    refine ⟨⟨?_, ?_⟩, ?_⟩
    · intro j hj hleaf
      have hj0 : 0 < j := by
        rcases Nat.eq_zero_or_pos j with hz | hz
        · subst hz
          exact absurd (by simpa [IsLeaf] using hleaf) (hinv.rootDone h3)
        · exact hz
      have hmem := backMsg_received t val ph s hinv j hj0 hj (h4 j hj hj0)
      exact ⟨backMsg t val j, hinv.sentPerm.symm.subset (List.mem_append_left _ hmem), rfl, rfl⟩
    · intro j hj _ hroot
      have hj0 : 0 < j := by
        rcases Nat.eq_zero_or_pos j with hz | hz
        · subst hz; simp [IsRoot] at hroot
        · exact hz
      constructor
      · intro c hc
        rw [mem_Children] at hc
        exact ⟨backMsg t val c, backMsg_received t val ph s hinv c hc.2.1 hc.1 (h4 c hc.1 hc.2.1),
          rfl, rfl, hc.2.2⟩
      · unfold backsToParent
        rw [countP_back_eq t val j s.sent hsentEdge, hinv.sentPerm.count_eq, List.count_append,
          hinv.rcvB j hj0 hj, hinv.netB j hj0 hj, h4 j hj hj0]
        rfl
    · intro c hc
      rw [mem_Children] at hc
      exact ⟨backMsg t val c, backMsg_received t val ph s hinv c hc.2.1 hc.1 (h4 c hc.1 hc.2.1),
        rfl, rfl, hc.2.2⟩
  · rintro ⟨⟨hleaves, _⟩, hrootAll⟩
    have h3 : ph 0 = 3 := by
      rcases hinv.phRoot with h2 | h3
      · exfalso
        rcases hinv.p4 0 hwf.1 h2 with hl | ⟨c, hc, hne⟩
        · obtain ⟨m, hm, hb, hs⟩ := hleaves 0 hwf.1 (by simp [IsLeaf, hl.2])
          have := (back_on_edge t val m 0 (hsentEdge m hm) hb hs).2.1
          omega
        · obtain ⟨m, hm, hb, hs, _⟩ := hrootAll c hc
          obtain ⟨he, hc0, hcn⟩ := back_on_edge t val m c (hinv.rcvEdge m hm) hb hs
          rw [he] at hm
          have hcount := hinv.rcvB c hc0 hcn
          rw [if_neg hne] at hcount
          have : 0 < s.received.count (backMsg t val c) := List.count_pos_iff.2 hm
          omega
      · exact h3
    rw [hinv.handled, if_pos h3]
    simp

/-- Witness of `handler_iff_all_backs`: the two-node tree, the value 10, and the
state after both deliveries. -/
theorem handler_iff_all_backs_witness :
    (exec (GenerateBinaryTree 2) [0, 0] (Start (GenerateBinaryTree 2) 10)).handled = [10] ∧
    ((exec (GenerateBinaryTree 2) [0, 0] (Start (GenerateBinaryTree 2) 10)).handled ≠ [] ↔
      (allBacksDone (GenerateBinaryTree 2)
          (exec (GenerateBinaryTree 2) [0, 0] (Start (GenerateBinaryTree 2) 10)) ∧
        rootHasAllBacks (GenerateBinaryTree 2)
          (exec (GenerateBinaryTree 2) [0, 0] (Start (GenerateBinaryTree 2) 10)))) :=
  ⟨by decide,
   handler_iff_all_backs (GenerateBinaryTree 2) (wellFormed_GenerateBinaryTree 2 (by decide)) 10
     _ ⟨[0, 0], rfl⟩⟩

end BackForth

namespace BackForth

/-- C18: over a tree that consists of the root alone, a run started at the root
with any `val` sends no message and never calls the handler: in every
reachable state nothing has been sent, nothing is in transit and the list of
the handler calls is empty. -/
theorem single_node_never_handled (t : Tree) (h1 : t.size = 1) (val : Int) (s : Run)
    (hr : Reachable t val s) : s.sent = [] ∧ s.net = [] ∧ s.handled = [] := by
  have hch : Children t 0 = [] := by
    apply List.eq_nil_iff_forall_not_mem.2
    intro c hc
    rw [mem_Children] at hc
    omega
  have hnet : (Start t val).net = [] := by simp [Start, sendForth, hch]
  obtain ⟨sched, rfl⟩ := hr
  rw [exec_of_net_nil t sched _ hnet]
  exact ⟨by simp [Start, sendForth, hch], hnet, rfl⟩

/-- Witness of `single_node_never_handled`: the tree of a roster of one node,
the value 10 and the schedule 0, 0. -/
theorem single_node_never_handled_witness :
    (GenerateBinaryTree 1).size = 1 ∧
    (exec (GenerateBinaryTree 1) [0, 0] (Start (GenerateBinaryTree 1) 10)).sent = [] ∧
    (exec (GenerateBinaryTree 1) [0, 0] (Start (GenerateBinaryTree 1) 10)).net = [] ∧
    (exec (GenerateBinaryTree 1) [0, 0] (Start (GenerateBinaryTree 1) 10)).handled = [] :=
  ⟨rfl, single_node_never_handled (GenerateBinaryTree 1) rfl 10 _ ⟨[0, 0], rfl⟩⟩

end BackForth

/-! # Properties of the service registry and of the handshake -/

namespace Sda

/-- Filtering out a name that no binding has changes nothing. -/
theorem filter_ne_of_not_mem (l : List (String × Nat)) (n : String)
    (h : n ∉ l.map (fun b => b.1)) : l.filter (fun b => decide (b.1 ≠ n)) = l := by
  rw [List.filter_eq_self]
  intro b hb
  simp only [decide_eq_true_eq]
  intro hbn
  exact h (List.mem_map.2 ⟨b, hb, hbn⟩)

/-- C11: for every registry and every name `n` not yet registered, after
`RegisterNewService(n, f)` the list `RegisteredServicesName()` contains `n`;
after a following `DeleteNewService(n)` it does not contain `n`, and the
registry is the registry before the registration. -/
theorem register_then_delete (r : serviceFactory) (n : String) (f : Nat)
    (h : n ∉ RegisteredServicesName r) :
    n ∈ RegisteredServicesName (RegisterNewService r n f) ∧
    n ∉ RegisteredServicesName (DeleteNewService (RegisterNewService r n f) n) ∧
    DeleteNewService (RegisterNewService r n f) n = r := by
  have hf := filter_ne_of_not_mem r.constructors n h
  have hback : DeleteNewService (RegisterNewService r n f) n = r := by
    cases r with
    | mk cs =>
      simp only [DeleteNewService, RegisterNewService, serviceFactory.mk.injEq] at hf ⊢
      rw [hf, List.filter_append, hf]
      simp
  refine ⟨?_, ?_, hback⟩
  · simp [RegisteredServicesName, RegisterNewService]
  · rw [hback]
    exact h

/-- Witness of `register_then_delete`: the name "dummy" of the test, in a
registry that holds the service "Timestamp". -/
theorem register_then_delete_witness :
    "dummy" ∉ RegisteredServicesName { constructors := [("Timestamp", 1)] } ∧
    "dummy" ∈ RegisteredServicesName
      (RegisterNewService { constructors := [("Timestamp", 1)] } "dummy" 2) ∧
    "dummy" ∉ RegisteredServicesName
      (DeleteNewService (RegisterNewService { constructors := [("Timestamp", 1)] } "dummy" 2)
        "dummy") ∧
    DeleteNewService (RegisterNewService { constructors := [("Timestamp", 1)] } "dummy" 2)
      "dummy" = { constructors := [("Timestamp", 1)] } :=
  ⟨by decide, register_then_delete { constructors := [("Timestamp", 1)] } "dummy" 2 (by decide)⟩

end Sda

namespace Network

/-- C12: for every pair of server identities, `negotiateOpen` on a connection
to a router returns nil when the expected identity is the identity of the
router reached, and in general returns nil exactly when the expected identity
equals the identity of the router reached, that is, has its public key: with
another public key it returns an error. -/
theorem negotiateOpen_checks_peer (dialer si reached : ServerIdentity) :
    negotiateOpen dialer reached reached = none ∧
    (negotiateOpen dialer si reached = none ↔ si.Public = reached.Public) ∧
    (negotiateOpen dialer si reached ≠ none ↔ si.Public ≠ reached.Public) := by
  have hiff : negotiateOpen dialer si reached = none ↔ si.Public = reached.Public := by
    unfold negotiateOpen acceptOpen ServerIdentity.Equal
    by_cases h : reached.Public = si.Public
    · simp [h]
    · have h2 : ¬ si.Public = reached.Public := fun e => h e.symm
      simp [h, h2]
  refine ⟨?_, hiff, not_congr hiff⟩
  simp [negotiateOpen, acceptOpen, ServerIdentity.Equal]

end Network

/-! # Properties of the ssh keystore server -/

namespace SshKss

/-- The search loop of `delID` ends with the index it started with when no
identity has the `ID`, and else with the index of the last identity that has
it. -/
theorem idFoundFrom_cases (h : List Nat) : ∀ (ids : List Identity) (k f : Int),
    ((∀ id ∈ ids, id.ID ≠ h) ∧ idFoundFrom h ids k f = f) ∨
    (∃ pre x post, ids = pre ++ x :: post ∧ x.ID = h ∧ (∀ y ∈ post, y.ID ≠ h) ∧
      idFoundFrom h ids k f = k + pre.length) := by
  intro ids
  induction ids with
  | nil => intro k f; left; exact ⟨by simp, rfl⟩
  | cons id rest ih =>
    intro k f
    rcases ih (k + 1) (if id.ID = h then k else f) with ⟨hno, he⟩ | ⟨pre, x, post, hsplit, hx, hpost, he⟩
    · by_cases hid : id.ID = h
      · right
        refine ⟨[], id, rest, rfl, hid, hno, ?_⟩
        rw [if_pos hid] at he
        simp only [idFoundFrom, if_pos hid, he]
        simp
      · left
        refine ⟨?_, ?_⟩
        · intro y hy
          rcases List.mem_cons.1 hy with hy | hy
          · rw [hy]; exact hid
          · exact hno y hy
        · rw [if_neg hid] at he
          simp only [idFoundFrom, if_neg hid, he]
    · right
      refine ⟨id :: pre, x, post, by rw [hsplit]; rfl, hx, hpost, ?_⟩
      simp only [idFoundFrom, he, List.length_cons]
      push_cast
      ring

/-- The function `updateAllow` changes only the text files. -/
theorem updateAllow_serverKS (add : Bool) (w : World) :
    (updateAllow add w).serverKS = w.serverKS ∧
    (updateAllow add w).configFile = w.configFile :=
  ⟨rfl, rfl⟩

/-- The identities `delID` leaves: all of them when none has the `ID`, else all
but the last one that has it. -/
theorem delID_IDs (h : List Nat) (w : World) :
    ((∀ id ∈ w.serverKS.IDs, id.ID ≠ h) ∧ (delID h w).serverKS.IDs = w.serverKS.IDs) ∨
    (∃ pre x post, w.serverKS.IDs = pre ++ x :: post ∧ x.ID = h ∧ (∀ y ∈ post, y.ID ≠ h) ∧
      (delID h w).serverKS.IDs = pre ++ post) := by
  rcases idFoundFrom_cases h w.serverKS.IDs 0 (-1) with ⟨hno, he⟩ | ⟨pre, x, post, hsplit, hx, hpost, he⟩
  · left
    refine ⟨hno, ?_⟩
    simp [delID, he, list]
  · right
    refine ⟨pre, x, post, hsplit, hx, hpost, ?_⟩
    have hne : ¬ ((0 : Int) + (pre.length : Int) = -1) := by omega
    have hnat : ((0 : Int) + (pre.length : Int)).toNat = pre.length := by simp
    simp only [delID, he, if_neg hne, list, hnat]
    show (updateAllow false w).serverKS.IDs.take pre.length ++
      (updateAllow false w).serverKS.IDs.drop (pre.length + 1) = pre ++ post
    rw [(updateAllow_serverKS false w).1, hsplit]
    simp

/-- C15, as stated, fails when two identities have the same `ID`, as after two
`addId` with one identity hash: `delID` removes one of them and the other is
still in the list. -/
theorem delID_leaves_duplicate :
    ¬ (∀ id ∈ (delID [1]
          { serverKS := { PathSSH := [], IDs := [{ ID := [1], Data := [] },
                                                { ID := [1], Data := [] }] },
            configFile := none, files := fun _ => none }).serverKS.IDs,
        id.ID ≠ [1]) := by
  decide

/-- C15, amended: for every list of registered identities and every identity
hash `h`, `delID` removes one identity, the last one in the list whose `ID`
equals `h`; all other identities, earlier ones with the `ID` `h` among them,
stay in their relative order. When at most one identity has the `ID` `h`, no
identity of the list has it afterwards; when none has it, the list is
unchanged. `PathSSH` is unchanged. -/
theorem delID_removes_last (h : List Nat) (w : World) :
    ((∀ id ∈ w.serverKS.IDs, id.ID ≠ h) → (delID h w).serverKS.IDs = w.serverKS.IDs) ∧
    ((∃ id ∈ w.serverKS.IDs, id.ID = h) →
      ∃ pre x post, w.serverKS.IDs = pre ++ x :: post ∧ x.ID = h ∧ (∀ y ∈ post, y.ID ≠ h) ∧
        (delID h w).serverKS.IDs = pre ++ post) ∧
    (w.serverKS.IDs.countP (fun id => decide (id.ID = h)) ≤ 1 →
      ∀ id ∈ (delID h w).serverKS.IDs, id.ID ≠ h) ∧
    (delID h w).serverKS.IDs.Sublist w.serverKS.IDs ∧
    (delID h w).serverKS.PathSSH = w.serverKS.PathSSH := by
  refine ⟨?_, ?_, ?_, ?_, ?_⟩
  · intro hno
    rcases delID_IDs h w with ⟨_, he⟩ | ⟨pre, x, post, hsplit, hx, _, _⟩
    · exact he
    · exact absurd hx (hno x (by rw [hsplit]; simp))
  · rintro ⟨id, hid, hidh⟩
    rcases delID_IDs h w with ⟨hno, _⟩ | hex
    · exact absurd hidh (hno id hid)
    · exact hex
  · intro hcount
    rcases delID_IDs h w with ⟨hno, he⟩ | ⟨pre, x, post, hsplit, hx, hpost, he⟩
    · rw [he]; exact hno
    · rw [he]
      rw [hsplit, List.countP_append, List.countP_cons_of_pos _ _ (by simpa using hx)] at hcount
      have hpre : pre.countP (fun id => decide (id.ID = h)) = 0 := by omega
      rw [List.countP_eq_zero] at hpre
      intro id hid
      rcases List.mem_append.1 hid with hm | hm
      · simpa using hpre id hm
      · exact hpost id hm
  · rcases delID_IDs h w with ⟨_, he⟩ | ⟨pre, x, post, hsplit, _, _, he⟩
    · rw [he]
    · rw [he, hsplit]
      exact List.Sublist.append (List.Sublist.refl pre) (List.sublist_cons_self x post)
  · unfold delID
    dsimp only
    split_ifs <;> rfl

/-- Witness of `delID_removes_last`: three identities, two of them with the
`ID` `[1]`, and one key to take out of `authorized_keys`. -/
theorem delID_removes_last_witness :
    (∃ id ∈ [({ ID := [1], Data := [] } : Identity), { ID := [2], Data := [] },
        { ID := [1], Data := [['k']] }], id.ID = [1]) ∧
    ∃ pre x post,
      [({ ID := [1], Data := [] } : Identity), { ID := [2], Data := [] },
        { ID := [1], Data := [['k']] }] = pre ++ x :: post ∧ x.ID = [1] ∧
      (∀ y ∈ post, y.ID ≠ [1]) ∧
      (delID [1]
        { serverKS := { PathSSH := [], IDs := [{ ID := [1], Data := [] },
            { ID := [2], Data := [] }, { ID := [1], Data := [['k']] }] },
          configFile := none, files := fun _ => none }).serverKS.IDs = pre ++ post :=
  ⟨⟨_, List.mem_cons_self _ _, rfl⟩,
   (delID_removes_last [1]
      { serverKS := { PathSSH := [], IDs := [{ ID := [1], Data := [] },
          { ID := [2], Data := [] }, { ID := [1], Data := [['k']] }] },
        configFile := none, files := fun _ => none }).2.1
     ⟨_, List.mem_cons_self _ _, rfl⟩⟩

/-- C16 on the code: for the content "abc", which does not end with a newline,
and the string "x", `addLine` writes "abcx" and a newline: the previous
content is the start of the new one, but no line of the file is "x". -/
theorem addLine_glues_to_last_line :
    (addLine (fun _ => some ['a', 'b', 'c']) ['f'] ['x']) ['f']
      = some ['a', 'b', 'c', 'x', '\n'] ∧
    Split ['a', 'b', 'c', 'x', '\n'] = [['a', 'b', 'c', 'x'], []] ∧
    ['x'] ∉ Split ['a', 'b', 'c', 'x', '\n'] ∧
    '\n' ∉ ['x'] := by
  decide

/-- The stand-in codec decodes what it encodes. -/
theorem toy_roundtrip (v : servers) :
    ∃ buf, toyMarshal v = .ok buf ∧ toyUnmarshal buf = .ok (Body.servers v) := by
  refine ⟨_, rfl, ?_⟩
  have hchars : ∀ l : List Char, (l.map Char.toNat).map Char.ofNat = l := by
    intro l
    induction l with
    | nil => rfl
    | cons c cs ih => simp only [List.map_cons, Char.ofNat_toNat, ih]
  have hdata : ∀ d : List (List Char),
      (d.map (fun k => k.map Char.toNat)).map (fun k => k.map Char.ofNat) = d := by
    intro d
    induction d with
    | nil => rfl
    | cons k ks ih => simp only [List.map_cons, hchars, ih]
  have hids : ∀ ids : List Identity,
      (ids.map (fun id => (id.ID, id.Data.map (fun k => k.map Char.toNat)))).map
        (fun id => ({ ID := id.1, Data := id.2.map (fun k => k.map Char.ofNat) } : Identity))
        = ids := by
    intro ids
    induction ids with
    | nil => rfl
    | cons id rest ih => simp only [List.map_cons, hdata, ih]
  have hval : toyValue (toyFields v) = v := by
    cases v with
    | mk path ids => simp only [toyValue, toyFields, hchars, hids]
  simp only [toyUnmarshal, Encodable.encodek, hval]

/-- No command writes the config file. -/
theorem runCommand_configFile (cmd : Command) (w : World) :
    (runCommand cmd w).configFile = w.configFile := by
  cases cmd with
  | addId iden path => rfl
  | delId idHex =>
    simp only [runCommand, delID]
    split_ifs <;> rfl
  | update updated => rfl
  | list => rfl

/-- What `saveConfig` and `loadConfig` do with any codec, no law assumed:
`saveConfig` writes the buffer `marshal` returns for `serverKS`, and
`loadConfig` on a config file with that buffer puts in `serverKS` whatever
`servers` value `unmarshal` decodes the buffer to, or returns the error of
`unmarshal` and leaves `serverKS` as it was. -/
theorem loadConfig_of_saved (marshal : servers → Except String (List Nat))
    (unmarshal : List Nat → Except String Body) (w : World) (fresh : servers)
    (buf : List Nat) (hm : marshal w.serverKS = .ok buf) :
    saveConfig marshal w
      = some { serverKS := w.serverKS, configFile := some buf, files := w.files } ∧
    (∀ v, unmarshal buf = .ok (Body.servers v) →
      loadConfig unmarshal { serverKS := fresh, configFile := some buf, files := w.files }
        = some ({ serverKS := v, configFile := some buf, files := w.files }, none)) ∧
    (∀ e, unmarshal buf = .error e →
      loadConfig unmarshal { serverKS := fresh, configFile := some buf, files := w.files }
        = some ({ serverKS := fresh, configFile := some buf, files := w.files }, some e)) := by
  refine ⟨?_, ?_, ?_⟩
  · simp only [saveConfig, hm]
  · intro v hu
    simp only [loadConfig, hu]
  · intro e hu
    simp only [loadConfig, hu]

/-- C13: for every `servers` value `v` held in `serverKS`, with a codec that
decodes the registered encoding of a `servers` value to that value,
`saveConfig` writes the encoding of `v` to the config file and changes nothing
else; `loadConfig` on that config file, run with any value `fresh` in
`serverKS` (the empty `servers` of a new run, or any other), returns a nil
error and leaves `serverKS` equal to `v`, the files as they are. -/
theorem save_then_load (marshal : servers → Except String (List Nat))
    (unmarshal : List Nat → Except String Body)
    (hrt : ∀ v, ∃ buf, marshal v = .ok buf ∧ unmarshal buf = .ok (Body.servers v))
    (w : World) (fresh : servers) :
    ∃ buf, marshal w.serverKS = .ok buf ∧
      saveConfig marshal w
        = some { serverKS := w.serverKS, configFile := some buf, files := w.files } ∧
      loadConfig unmarshal { serverKS := fresh, configFile := some buf, files := w.files }
        = some ({ serverKS := w.serverKS, configFile := some buf, files := w.files }, none) := by
  obtain ⟨buf, hm, hu⟩ := hrt w.serverKS
  obtain ⟨hsave, hload, _⟩ := loadConfig_of_saved marshal unmarshal w fresh buf hm
  exact ⟨buf, hm, hsave, hload w.serverKS hu⟩

/-- Witness of `save_then_load`: the stand-in codec, a state with one identity
and no config file yet, and the load into the empty `servers` value of a new
run. -/
theorem save_then_load_witness :
    (∀ v, ∃ buf, toyMarshal v = .ok buf ∧ toyUnmarshal buf = .ok (Body.servers v)) ∧
    ∃ buf,
      toyMarshal { PathSSH := ['s'], IDs := [{ ID := [1], Data := [['k']] }] } = .ok buf ∧
      saveConfig toyMarshal
        { serverKS := { PathSSH := ['s'], IDs := [{ ID := [1], Data := [['k']] }] },
          configFile := none, files := fun _ => none }
        = some { serverKS := { PathSSH := ['s'], IDs := [{ ID := [1], Data := [['k']] }] },
                 configFile := some buf, files := fun _ => none } ∧
      loadConfig toyUnmarshal
        { serverKS := { PathSSH := [], IDs := [] }, configFile := some buf,
          files := fun _ => none }
        = some ({ serverKS := { PathSSH := ['s'], IDs := [{ ID := [1], Data := [['k']] }] },
                  configFile := some buf, files := fun _ => none }, none) :=
  ⟨toy_roundtrip,
   save_then_load toyMarshal toyUnmarshal toy_roundtrip
     { serverKS := { PathSSH := ['s'], IDs := [{ ID := [1], Data := [['k']] }] },
       configFile := none, files := fun _ => none }
     { PathSSH := [], IDs := [] }⟩

/-- C14, as stated, fails after `delId` removes the only registered identity:
no identity is registered in memory, `app.After` does not save, and the config
file still holds the state with the identity. -/
theorem deleted_identity_stays_in_file :
    ∃ w2 buf,
      appAfter toyMarshal (runCommand (Command.delId [1])
        { serverKS := { PathSSH := ['s'], IDs := [{ ID := [1], Data := [] }] },
          configFile := some [Encodable.encode
            (toyFields { PathSSH := ['s'], IDs := [{ ID := [1], Data := [] }] })],
          files := fun _ => none }) = some w2 ∧
      w2.serverKS.IDs = [] ∧
      w2.configFile = some buf ∧
      toyUnmarshal buf
        = .ok (Body.servers { PathSSH := ['s'], IDs := [{ ID := [1], Data := [] }] }) ∧
      toyUnmarshal buf ≠ .ok (Body.servers w2.serverKS) := by
  obtain ⟨buf, hm, hu⟩ := toy_roundtrip { PathSSH := ['s'], IDs := [{ ID := [1], Data := [] }] }
  have hbuf : buf = [Encodable.encode
      (toyFields { PathSSH := ['s'], IDs := [{ ID := [1], Data := [] }] })] := by
    simp only [toyMarshal, Except.ok.injEq] at hm
    exact hm.symm
  subst hbuf
  refine ⟨_, _, rfl, ?_, rfl, hu, ?_⟩
  · decide
  · rw [hu]
    intro h
    simp only [Except.ok.injEq, Body.servers.injEq] at h
    have h2 := congrArg servers.IDs h
    revert h2
    decide

/-- C14, amended: after every command (`addId`, `delId`, `update`, `list`) has
run and `app.After` has returned, when at least one identity is registered in
memory the config file holds the encoding of the state in memory, which
decodes to exactly that state; when no identity is registered, `app.After`
does not write and the config file is as it was before the command. -/
theorem after_saves_when_nonempty (marshal : servers → Except String (List Nat))
    (unmarshal : List Nat → Except String Body)
    (hrt : ∀ v, ∃ buf, marshal v = .ok buf ∧ unmarshal buf = .ok (Body.servers v))
    (cmd : Command) (w : World) :
    ∃ w2, appAfter marshal (runCommand cmd w) = some w2 ∧
      w2.serverKS = (runCommand cmd w).serverKS ∧
      (w2.serverKS.IDs ≠ [] →
        ∃ buf, w2.configFile = some buf ∧ unmarshal buf = .ok (Body.servers w2.serverKS)) ∧
      (w2.serverKS.IDs = [] → w2.configFile = w.configFile) := by
  obtain ⟨buf, hm, hu⟩ := hrt (runCommand cmd w).serverKS
  by_cases hpos : 0 < (runCommand cmd w).serverKS.IDs.length
  · refine ⟨{ runCommand cmd w with configFile := some buf }, ?_, rfl, ?_, ?_⟩
    · simp only [appAfter, if_pos hpos, saveConfig, hm]
    · intro _
      exact ⟨buf, rfl, hu⟩
    · intro hnil
      have hnil2 : (runCommand cmd w).serverKS.IDs = [] := hnil
      rw [hnil2] at hpos
      simp at hpos
  · refine ⟨runCommand cmd w, ?_, rfl, ?_, ?_⟩
    · simp only [appAfter, if_neg hpos]
    · intro hne
      exact absurd (List.length_pos.2 hne) hpos
    · intro _
      exact runCommand_configFile cmd w

/-- Witness of `after_saves_when_nonempty`: the stand-in codec, the command
`list` and a state with one identity. -/
theorem after_saves_when_nonempty_witness :
    (∀ v, ∃ buf, toyMarshal v = .ok buf ∧ toyUnmarshal buf = .ok (Body.servers v)) ∧
    ∃ w2, appAfter toyMarshal (runCommand Command.list
        { serverKS := { PathSSH := ['s'], IDs := [{ ID := [1], Data := [] }] },
          configFile := none, files := fun _ => none }) = some w2 ∧
      w2.serverKS = (runCommand Command.list
        { serverKS := { PathSSH := ['s'], IDs := [{ ID := [1], Data := [] }] },
          configFile := none, files := fun _ => none }).serverKS ∧
      (w2.serverKS.IDs ≠ [] →
        ∃ buf, w2.configFile = some buf ∧ toyUnmarshal buf = .ok (Body.servers w2.serverKS)) ∧
      (w2.serverKS.IDs = [] → w2.configFile = none) :=
  ⟨toy_roundtrip,
   after_saves_when_nonempty toyMarshal toyUnmarshal toy_roundtrip Command.list
     { serverKS := { PathSSH := ['s'], IDs := [{ ID := [1], Data := [] }] },
       configFile := none, files := fun _ => none }⟩

/-- The loop of `addLine` finds `str` exactly when it is one of the lines. -/
theorem foundLine_eq (str : List Char) (lines : List (List Char)) :
    foundLine lines str = decide (str ∈ lines) := by
  have h : ∀ (ls : List (List Char)) (b : Bool),
      ls.foldl (fun found l => found || decide (l = str)) b = (b || decide (str ∈ ls)) := by
    intro ls
    induction ls with
    | nil => intro b; simp
    | cons l ls ih =>
      intro b
      rw [List.foldl_cons, ih]
      by_cases hl : l = str
      · simp [hl]
      · have hl2 : ¬ str = l := fun e => hl e.symm
        simp [hl, hl2]
  rw [foundLine, h]
  simp

theorem Split_nil : Split [] = [[]] := rfl

theorem Split_cons (c : Char) (cs : List Char) :
    Split (c :: cs) =
      if c = '\n' then [] :: Split cs else (Split cs).modifyHead (List.cons c) := by
  unfold Split List.splitOn
  rw [List.splitOnP_cons]
  by_cases h : c = '\n'
  · simp [h]
  · simp [h]

theorem Split_ne_nil (s : List Char) : Split s ≠ [] :=
  List.splitOnP_ne_nil _ s

/-- The lines of a string without newline followed by a newline. -/
theorem Split_line (s : List Char) (hs : '\n' ∉ s) : Split (s ++ ['\n']) = [s, []] := by
  unfold Split List.splitOn
  rw [List.splitOnP_first _ s _ '\n' (by simp) []]
  · rfl
  · intro x hx hxe
    have : x = '\n' := by simpa using hxe
    exact hs (this ▸ hx)

/-- The lines of a content followed by a string without newline and a
newline: the string is joined to the last line of the content, and an empty
line follows. -/
theorem Split_append_line (s : List Char) (hs : '\n' ∉ s) :
    ∀ (content : List Char) (L : List (List Char)) (last : List Char),
      Split content = L ++ [last] →
      Split (content ++ (s ++ ['\n'])) = L ++ [last ++ s, []] := by
  intro content
  induction content with
  | nil =>
    intro L last h
    rw [Split_nil] at h
    have := List.append_inj' (show [] ++ [[]] = L ++ [last] from h) rfl
    obtain ⟨hL, hlast⟩ := this
    simp only [List.cons.injEq, and_true] at hlast
    rw [← hL, ← hlast, List.nil_append, List.nil_append, List.nil_append]
    exact Split_line s hs
  | cons c cs ih =>
    intro L last h
    have hne := Split_ne_nil cs
    have hdec := (List.dropLast_append_getLast hne).symm
    have hrec := ih _ _ hdec
    rw [List.cons_append, Split_cons, hrec]
    rw [Split_cons] at h
    by_cases hc : c = '\n'
    · rw [if_pos hc] at h ⊢
      rw [hdec] at h
      have := List.append_inj'
        (show ([] :: (Split cs).dropLast) ++ [(Split cs).getLast hne] = L ++ [last] from h) rfl
      obtain ⟨hL, hlast⟩ := this
      simp only [List.cons.injEq, and_true] at hlast
      rw [← hL, ← hlast]
      rfl
    · rw [if_neg hc] at h ⊢
      rw [hdec] at h
      cases hd : (Split cs).dropLast with
      | nil =>
        rw [hd] at h
        have := List.append_inj'
          (show [] ++ [c :: (Split cs).getLast hne] = L ++ [last] from h) rfl
        obtain ⟨hL, hlast⟩ := this
        simp only [List.cons.injEq, and_true] at hlast
        rw [← hL, ← hlast]
        rfl
      | cons l0 ls =>
        rw [hd] at h
        have := List.append_inj'
          (show ((c :: l0) :: ls) ++ [(Split cs).getLast hne] = L ++ [last] from h) rfl
        obtain ⟨hL, hlast⟩ := this
        simp only [List.cons.injEq, and_true] at hlast
        rw [← hL, ← hlast]
        rfl

/-- The lines of a content that is empty or ends with a newline end with an
empty line. -/
theorem Split_of_ends (content : List Char)
    (h : content = [] ∨ content.getLast? = some '\n') : ∃ L, Split content = L ++ [[]] := by
  rcases h with h | h
  · exact ⟨[], by rw [h]; rfl⟩
  · obtain ⟨c0, hc0⟩ := List.getLast?_eq_some_iff.1 h
    have hne := Split_ne_nil c0
    have := Split_append_line [] (by simp) c0 _ _ (List.dropLast_append_getLast hne).symm
    rw [List.nil_append, List.append_nil] at this
    refine ⟨(Split c0).dropLast ++ [(Split c0).getLast hne], ?_⟩
    rw [hc0, this]
    simp

/-- A string occurs in every content that holds it. -/
theorem Contains_append (s b : List Char) : ∀ a : List Char, Contains (a ++ (s ++ b)) s = true := by
  intro a
  induction a with
  | nil =>
    rw [List.nil_append]
    cases hsb : s ++ b with
    | nil =>
      have : s = [] := (List.append_eq_nil.1 hsb).1
      simp [Contains, this]
    | cons x xs =>
      have hp : s.isPrefixOf (x :: xs) = true := by
        rw [List.isPrefixOf_iff_prefix, ← hsb]
        exact List.prefix_append s b
      simp [Contains, hp]
  | cons x a ih =>
    rw [List.cons_append]
    simp [Contains, ih]

/-- A string that neither starts nor ends with white space is its own trim. -/
theorem TrimSpace_eq_self (str : List Char)
    (hhead : ∀ c, str.head? = some c → isSpace c = false)
    (hlast : ∀ c, str.getLast? = some c → isSpace c = false) : TrimSpace str = str := by
  have hdrop : ∀ l : List Char, (∀ c, l.head? = some c → isSpace c = false) →
      l.dropWhile isSpace = l := by
    intro l hl
    cases l with
    | nil => rfl
    | cons c cs =>
      apply List.dropWhile_cons_of_neg
      rw [hl c rfl]
      simp
  unfold TrimSpace
  rw [hdrop str hhead, hdrop str.reverse (by rw [List.head?_reverse]; exact hlast),
    List.reverse_reverse]

/-- C17: for every file whose content is empty or ends with a newline and has
no line equal to `str`, and every non-empty `str` without newline and without
leading or trailing white space, `addLine(file, str)` followed by
`deleteLine(file, str)` leaves the content of the file equal to the original
content, and every other file as it was. -/
theorem deleteLine_undoes_addLine (files : List Char → Option (List Char))
    (file str : List Char)
    (hend : (files file).getD [] = [] ∨ ((files file).getD []).getLast? = some '\n')
    (hno : str ∉ Split ((files file).getD []))
    (hne : str ≠ []) (hnl : '\n' ∉ str)
    (hhead : ∀ c, str.head? = some c → isSpace c = false)
    (hlast : ∀ c, str.getLast? = some c → isSpace c = false) :
    ((deleteLine (addLine files file str) file str) file).getD [] = (files file).getD [] ∧
    (addLine files file str) file = some ((files file).getD [] ++ (str ++ ['\n'])) ∧
    ∀ other, other ≠ file → (deleteLine (addLine files file str) file str) other = files other := by
  obtain ⟨L, hL⟩ := Split_of_ends _ hend
  have hadd : addLine files file str =
      WriteFile files file ((files file).getD [] ++ (str ++ ['\n'])) := by
    unfold addLine
    simp only [foundLine_eq, hno, decide_False, Bool.not_false, if_true]
  have hfile : (addLine files file str) file
      = some ((files file).getD [] ++ (str ++ ['\n'])) := by
    rw [hadd]
    simp [WriteFile]
  have hgrep : grep (addLine files file str) file str = true := by
    unfold grep
    rw [hfile]
    exact Contains_append str ['\n'] _
  have hsplit := Split_append_line str hnl _ L [] hL
  rw [List.nil_append] at hsplit
  have hLno : ∀ l ∈ L, l ≠ str := by
    intro l hl he
    apply hno
    rw [hL, ← he]
    exact List.mem_append_left _ hl
  have hlines : (Split ((files file).getD [] ++ (str ++ ['\n']))).filter
      (fun l => decide (l ≠ str)) = Split ((files file).getD []) := by
    rw [hsplit, hL, List.filter_append]
    have h1 : L.filter (fun l => decide (l ≠ str)) = L := by
      rw [List.filter_eq_self]
      intro l hl
      simpa using hLno l hl
    have h2 : [str, []].filter (fun l => decide (l ≠ str)) = [[]] := by
      have : ¬ ([] : List Char) = str := fun e => hne e.symm
      simp [List.filter, this]
    rw [h1, h2]
  have hdel : deleteLine (addLine files file str) file str =
      WriteFile (addLine files file str) file ((files file).getD []) := by
    unfold deleteLine
    simp only [TrimSpace_eq_self str hhead hlast, hgrep, Bool.not_true, Bool.false_eq_true,
      if_false, hfile, Option.getD_some, hlines]
    have hjoin : Join (Split ((files file).getD [])) = (files file).getD [] :=
      List.intercalate_splitOn _ '\n'
    rw [hjoin]
  refine ⟨?_, hfile, ?_⟩
  · rw [hdel]
    simp [WriteFile]
  · intro other hother
    rw [hdel, hadd]
    simp [WriteFile, Function.update_noteq hother]

/-- Witness of `deleteLine_undoes_addLine`: a file with the line "a" and the
key "k b". -/
theorem deleteLine_undoes_addLine_witness :
    ((deleteLine (addLine (fun _ => some ['a', '\n']) ['f'] ['k', ' ', 'b']) ['f']
        ['k', ' ', 'b']) ['f']).getD [] = ['a', '\n'] ∧
    (addLine (fun _ => some ['a', '\n']) ['f'] ['k', ' ', 'b']) ['f']
      = some (['a', '\n'] ++ (['k', ' ', 'b'] ++ ['\n'])) :=
  ⟨(deleteLine_undoes_addLine (fun _ => some ['a', '\n']) ['f'] ['k', ' ', 'b']
      (Or.inr (by decide)) (by decide) (by decide) (by decide)
      (by intro c hc; cases hc; decide) (by intro c hc; cases hc; decide)).1,
   (deleteLine_undoes_addLine (fun _ => some ['a', '\n']) ['f'] ['k', ' ', 'b']
      (Or.inr (by decide)) (by decide) (by decide) (by decide)
      (by intro c hc; cases hc; decide) (by intro c hc; cases hc; decide)).2.1⟩

end SshKss
